import Mathlib

/-!
Verification of the semantic memory indexer of this repository
(src/memory/semantic_indexer.py).

Modeling conventions:
- scores are rationals (the source uses floating point; the claims under
  study are exact algebraic statements about the score formulas);
- timestamps are integers, measured in seconds;
- the SQLite database is a record of explicit table contents; statements
  executed on a connection are modeled as an operation trace, and a trace
  becomes durable only up to its last commit marker, because sqlite rolls
  an open transaction back when the connection is dropped without commit;
- the embedding model, the FTS index statistic and the cosine routine of
  the vector backends are external collaborators and enter as parameters.
-/

namespace Sentinel

/-- Python text.split() with no separator (semantic_indexer.py, line 165):
split on whitespace characters and drop the empty pieces produced by runs. -/
def pySplit (text : String) : List String :=
  (text.split (fun c => c.isWhitespace)).filter (fun w => w != "")

/-- Fuel-indexed core of SemanticIndexer.chunk_text (lines 167-183).  The
remaining word list stands for words[start:]; each round appends the window
words[start:start+size], advances start by size - overlap, and breaks once
start + size has reached the end of the word list.  Fuel bounds the round
count, because the Python loop does not terminate when overlap >= size. -/
def chunkLoop (size overlap : Nat) : Nat → List String → List (List String)
  | 0, _ => []
  | fuel + 1, ws =>
    if ws.isEmpty then []
    else if ws.length ≤ size then [ws.take size]
    else ws.take size :: chunkLoop size overlap fuel (ws.drop (size - overlap))

/-- SemanticIndexer.chunk_text at the word level: the word windows produced
by the loop, with enough fuel for a word list of the given length. -/
def chunkWords (size overlap : Nat) (ws : List String) : List (List String) :=
  chunkLoop size overlap (ws.length + 1) ws

/-- SemanticIndexer.chunk_text (lines 151-183): split the text into words,
window them, and join each window with single spaces. -/
def chunk_text (size overlap : Nat) (text : String) : List String :=
  (chunkWords size overlap (pySplit text)).map (fun c => String.intercalate " " c)

/-- The chunk count the loop produces for n words, overlap < size: zero for
an empty word list, one when the words fit into a single window, and the
ceiling of (n - overlap) / (size - overlap) otherwise. -/
def numChunks (size overlap n : Nat) : Nat :=
  if n = 0 then 0
  else if n ≤ size then 1
  else (n - overlap + (size - overlap) - 1) / (size - overlap)

lemma numChunks_step (size overlap : Nat) (ho : overlap < size) {n : Nat} (hn : size < n) :
    numChunks size overlap n = numChunks size overlap (n - (size - overlap)) + 1 := by
  have hstep : 0 < size - overlap := by omega
  set step := size - overlap with hstepdef
  have hn0 : n ≠ 0 := by omega
  have hn1 : ¬ n ≤ size := by omega
  have hn2 : n - step ≠ 0 := by omega
  by_cases hcase : n - step ≤ size
  · have h2 : 2 * step ≤ n - overlap + step - 1 := by omega
    have h3 : n - overlap + step - 1 < (2 + 1) * step := by omega
    simp only [numChunks, if_neg hn0, if_neg hn1, if_neg hn2, if_pos hcase]
    rw [Nat.div_eq_of_lt_le h2 h3]
  · have heq : n - overlap + step - 1 = (n - step - overlap + step - 1) + step := by omega
    simp only [numChunks, if_neg hn0, if_neg hn1, if_neg hn2, if_neg hcase]
    rw [heq, Nat.add_div_right _ hstep]

lemma chunkLoop_eq (size overlap : Nat) (ho : overlap < size) :
    ∀ (fuel : Nat) (ws : List String), ws.length < fuel →
      chunkLoop size overlap fuel ws
        = (List.range (numChunks size overlap ws.length)).map
            (fun i => (ws.drop (i * (size - overlap))).take size) := by
  intro fuel
  induction fuel with
  | zero => intro ws h; omega
  | succ fuel ih =>
    intro ws h
    by_cases hemp : ws.isEmpty
    · have : ws = [] := by simpa [List.isEmpty_iff] using hemp
      subst this
      simp [chunkLoop, numChunks]
    · have hne : ws ≠ [] := by simpa [List.isEmpty_iff] using hemp
      have hlen0 : ws.length ≠ 0 := by simpa [List.length_eq_zero] using hne
      by_cases hfit : ws.length ≤ size
      · have h1 : List.range 1 = [0] := rfl
        simp [chunkLoop, hemp, hfit, numChunks, hlen0, h1]
      · have hstep : 0 < size - overlap := by omega
        have hlt : (ws.drop (size - overlap)).length < fuel := by
          simp only [List.length_drop]; omega
        have hrec := ih (ws.drop (size - overlap)) hlt
        have hkey : numChunks size overlap ws.length
            = numChunks size overlap ((ws.drop (size - overlap)).length) + 1 := by
          rw [List.length_drop]
          exact numChunks_step size overlap ho (by omega)
        simp only [chunkLoop, hemp, Bool.false_eq_true, if_false, if_neg hfit]
        rw [hrec, hkey, List.range_succ_eq_map, List.map_cons, List.map_map]
        congr 1
        · simp
        · apply List.map_congr_left
          intro i _
          simp only [Function.comp_apply, List.drop_drop, Nat.succ_eq_add_one]
          congr 2
          ring

lemma chunkWords_eq (size overlap : Nat) (ho : overlap < size) (ws : List String) :
    chunkWords size overlap ws
      = (List.range (numChunks size overlap ws.length)).map
          (fun i => (ws.drop (i * (size - overlap))).take size) :=
  chunkLoop_eq size overlap ho (ws.length + 1) ws (by omega)

lemma chunkWords_length (size overlap : Nat) (ho : overlap < size) (ws : List String) :
    (chunkWords size overlap ws).length = numChunks size overlap ws.length := by
  rw [chunkWords_eq size overlap ho]; simp

/-- Every window index produced stays strictly inside the word list. -/
lemma numChunks_start_lt (size overlap : Nat) (ho : overlap < size) {n i : Nat}
    (hi : i < numChunks size overlap n) : i * (size - overlap) < n := by
  have hstep : 0 < size - overlap := by omega
  by_cases hn0 : n = 0
  · simp [numChunks, hn0] at hi
  · by_cases hfit : n ≤ size
    · have : i = 0 := by simp [numChunks, hn0, hfit] at hi; omega
      subst this; omega
    · simp only [numChunks, if_neg hn0, if_neg hfit] at hi
      set v := n - overlap + (size - overlap) - 1 with hv
      have hq : (v / (size - overlap)) * (size - overlap) ≤ v := Nat.div_mul_le_self _ _
      have hi1 : i + 1 ≤ v / (size - overlap) := hi
      have : (i + 1) * (size - overlap) ≤ (v / (size - overlap)) * (size - overlap) :=
        Nat.mul_le_mul_right _ hi1
      have hone : (i + 1) * (size - overlap) = i * (size - overlap) + (size - overlap) := by ring
      omega

/-- Reassembling overlapping windows: the first window followed by every
later window with its first overlap words removed. -/
def reassemble (overlap : Nat) : List (List String) → List String
  | [] => []
  | c :: cs => c ++ (cs.map (fun w => w.drop overlap)).flatten

lemma chunkLoop_dropJoin (size overlap : Nat) (ho : overlap < size) :
    ∀ (fuel : Nat) (ws : List String), ws.length < fuel →
      ((chunkLoop size overlap fuel ws).map (fun c => c.drop overlap)).flatten
        = ws.drop overlap := by
  intro fuel
  induction fuel with
  | zero => intro ws h; omega
  | succ fuel ih =>
    intro ws h
    by_cases hemp : ws.isEmpty
    · have : ws = [] := by simpa [List.isEmpty_iff] using hemp
      subst this
      simp [chunkLoop]
    · have hne : ws ≠ [] := by simpa [List.isEmpty_iff] using hemp
      by_cases hfit : ws.length ≤ size
      · simp [chunkLoop, hemp, hfit, List.take_of_length_le hfit]
      · have hlt : (ws.drop (size - overlap)).length < fuel := by
          simp only [List.length_drop]; omega
        have hrec := ih (ws.drop (size - overlap)) hlt
        simp only [chunkLoop, hemp, Bool.false_eq_true, if_false, if_neg hfit,
          List.map_cons, List.flatten_cons]
        rw [hrec, List.drop_drop, List.drop_take]
        have hsz : size - overlap + overlap = size := by omega
        rw [hsz]
        have hdd : ws.drop size = (ws.drop overlap).drop (size - overlap) := by
          rw [List.drop_drop]
          congr 1
          omega
        rw [hdd, List.take_append_drop]

/-- The word sequence is recovered from the windows: the first window, then
each later window with the overlapping head removed. -/
lemma chunkWords_reassemble (size overlap : Nat) (ho : overlap < size) (ws : List String) :
    reassemble overlap (chunkWords size overlap ws) = ws := by
  by_cases hemp : ws.isEmpty
  · have : ws = [] := by simpa [List.isEmpty_iff] using hemp
    subst this
    simp [chunkWords, chunkLoop, reassemble]
  · have hne : ws ≠ [] := by simpa [List.isEmpty_iff] using hemp
    by_cases hfit : ws.length ≤ size
    · simp [chunkWords, chunkLoop, hemp, hfit, reassemble, List.take_of_length_le hfit]
    · have hlt : (ws.drop (size - overlap)).length < ws.length := by
        simp only [List.length_drop]; omega
      have hjoin := chunkLoop_dropJoin size overlap ho ws.length (ws.drop (size - overlap))
        (by simp only [List.length_drop]; omega)
      simp only [chunkWords, chunkLoop, hemp, Bool.false_eq_true, if_false, if_neg hfit,
        reassemble]
      have hfuel : chunkLoop size overlap ws.length (ws.drop (size - overlap))
          = chunkLoop size overlap ((ws.drop (size - overlap)).length + 1)
              (ws.drop (size - overlap)) := by
        rw [chunkLoop_eq size overlap ho ws.length _ (by simp only [List.length_drop]; omega),
          chunkLoop_eq size overlap ho _ _ (by omega)]
      rw [hfuel] at hjoin ⊢
      rw [hjoin, List.drop_drop]
      have hsz : size - overlap + overlap = size := by omega
      rw [hsz, List.take_append_drop]

lemma string_eq_empty_of_length (s : String) (h : s.length = 0) : s = "" := by
  cases s with
  | mk data =>
    have hd : data = [] := by simpa [String.length] using h
    subst hd
    rfl

lemma string_append_ne_empty_left (a b : String) (ha : a ≠ "") : a ++ b ≠ "" := by
  intro hc
  have hlen : (a ++ b).length = 0 := by rw [hc]; rfl
  rw [String.length_append] at hlen
  exact ha (string_eq_empty_of_length a (by omega))

lemma intercalate_go_ne_empty (s : String) :
    ∀ (l : List String) (acc : String), acc ≠ "" → String.intercalate.go acc s l ≠ "" := by
  intro l
  induction l with
  | nil => intro acc hacc; simpa [String.intercalate.go] using hacc
  | cons a as ih =>
    intro acc hacc
    have : String.intercalate.go acc s (a :: as) = String.intercalate.go (acc ++ s ++ a) s as := by
      simp [String.intercalate.go]
    rw [this]
    exact ih (acc ++ s ++ a) (string_append_ne_empty_left _ _ (string_append_ne_empty_left _ _ hacc))

lemma intercalate_ne_empty (s a : String) (l : List String) (ha : a ≠ "") :
    String.intercalate s (a :: l) ≠ "" := by
  simpa [String.intercalate] using intercalate_go_ne_empty s l a ha

lemma pySplit_mem_ne_empty (text : String) : ∀ w ∈ pySplit text, w ≠ "" := by
  intro w hw
  have := List.mem_filter.mp hw
  simpa using this.2

lemma chunk_text_ne_empty (size overlap : Nat) (ho : overlap < size) (text : String) :
    ∀ c ∈ chunk_text size overlap text, c ≠ "" := by
  intro c hc
  rw [chunk_text] at hc
  obtain ⟨w, hw, rfl⟩ := List.mem_map.mp hc
  rw [chunkWords_eq size overlap ho] at hw
  obtain ⟨i, hi, rfl⟩ := List.mem_map.mp hw
  have hi' : i < numChunks size overlap (pySplit text).length := List.mem_range.mp hi
  have hlt := numChunks_start_lt size overlap ho hi'
  have hdropne : (pySplit text).drop (i * (size - overlap)) ≠ [] := by
    intro hnil
    have := congrArg List.length hnil
    rw [List.length_drop] at this
    simp at this
    omega
  cases hwin : ((pySplit text).drop (i * (size - overlap))).take size with
  | nil =>
    exfalso
    rcases List.take_eq_nil_iff.mp hwin with h0 | h0
    · omega
    · exact hdropne h0
  | cons a rest =>
    have hmem : a ∈ ((pySplit text).drop (i * (size - overlap))).take size := by
      rw [hwin]; exact List.mem_cons_self a rest
    have ha : a ∈ pySplit text :=
      List.mem_of_mem_drop (List.mem_of_mem_take hmem)
    exact intercalate_ne_empty " " a rest (pySplit_mem_ne_empty text a ha)

/-- The content of claim C3, for a text with word sequence W: chunk_text
returns, in document order, the windows of up to size words starting at the
word indices 0, size - overlap, 2 * (size - overlap), ...; the chunk count is
ceil((length W - overlap) / (size - overlap)) when size < length W and exactly
1 when 0 < length W <= size; the empty word sequence gives the empty chunk
sequence; every chunk is non-empty; and the windows reassemble to W. -/
def ChunkerClaim (size overlap : Nat) (text : String) : Prop :=
  (chunk_text size overlap text
      = (List.range (numChunks size overlap (pySplit text).length)).map
          (fun i => String.intercalate " "
            (((pySplit text).drop (i * (size - overlap))).take size)))
  ∧ (size < (pySplit text).length →
      (chunk_text size overlap text).length
        = ((pySplit text).length - overlap + ((size - overlap) - 1)) / (size - overlap))
  ∧ (0 < (pySplit text).length → (pySplit text).length ≤ size →
      (chunk_text size overlap text).length = 1)
  ∧ (pySplit text = [] → chunk_text size overlap text = [])
  ∧ (∀ c ∈ chunk_text size overlap text, c ≠ "")
  ∧ reassemble overlap (chunkWords size overlap (pySplit text)) = pySplit text

/-- Claim C3: chunker reference behaviour.  For every text and every positive
size and overlap with overlap < size, chunk_text returns the overlapping word
windows in document order with the stated start indices, satisfies the stated
chunk-count formula, returns the empty sequence on an empty word sequence,
returns only non-empty chunks, and its windows reconstruct the word
sequence. -/
theorem claim_C3_chunker (size overlap : Nat) (text : String) (ho : overlap < size) :
    ChunkerClaim size overlap text := by
  have hlen : (chunk_text size overlap text).length
      = numChunks size overlap (pySplit text).length := by
    rw [chunk_text, List.length_map, chunkWords_length size overlap ho]
  refine ⟨?_, ?_, ?_, ?_, ?_, ?_⟩
  · rw [chunk_text, chunkWords_eq size overlap ho, List.map_map]
    rfl
  · intro hbig
    rw [hlen, numChunks]
    rw [if_neg (by omega), if_neg (by omega)]
    congr 1
    omega
  · intro hpos hfit
    rw [hlen, numChunks, if_neg (by omega), if_pos hfit]
  · intro hempty
    rw [chunk_text, hempty]
    rfl
  · exact chunk_text_ne_empty size overlap ho text
  · exact chunkWords_reassemble size overlap ho (pySplit text)

/-- Witness for claim C3 at size 3, overlap 1 on a concrete seven-word text. -/
theorem claim_C3_chunker_witness :
    1 < 3 ∧ ChunkerClaim 3 1 "alpha bb ccc dd ee ff g" :=
  ⟨by norm_num, claim_C3_chunker 3 1 "alpha bb ccc dd ee ff g" (by norm_num)⟩

/-- SearchResult dataclass (semantic_indexer.py, lines 37-45), with the score
as a rational. -/
structure SearchResult where
  chunk_id : String
  file_path : String
  file_type : String
  chunk_text : String
  score : ℚ
  rank : Nat
deriving DecidableEq

/-- Stored row of the memory_chunks table, created_at as an integer
timestamp in seconds. -/
structure ChunkRow where
  chunk_id : String
  file_path : String
  file_type : String
  chunk_text : String
  chunk_index : Nat
  token_count : Nat
  created_at : Int
  updated_at : Int
  metadata : String
deriving DecidableEq

/-- Stored row of the indexed_files table. -/
structure FileRow where
  file_path : String
  file_hash : String
  last_indexed : Int
  chunk_count : Nat
deriving DecidableEq

/-- Database state: the tables the indexer reads and writes (memory_chunks,
indexed_files, and the embedding store keyed by chunk id). -/
structure DBState where
  chunks : List ChunkRow
  files : List FileRow
  vecs : List (String × List ℚ)
deriving DecidableEq

/-- Stable ascending sort by a key: models SQL ORDER BY (with ties left in
stored row order) and the stable Python sorted(). -/
def sortOnAsc {α : Type} {κ : Type} [LinearOrder κ] (key : α → κ) (l : List α) : List α :=
  l.insertionSort (fun a b => key a ≤ key b)

/-- Stable descending sort by a key: Python sorted(key=..., reverse=True),
which keeps equal-keyed elements in their original order. -/
def sortOnDesc {α : Type} {κ : Type} [LinearOrder κ] (key : α → κ) (l : List α) : List α :=
  l.insertionSort (fun a b => key b ≤ key a)

/-- normalize_scores inside search_hybrid (lines 472-487): min-max normalize
a result list into an association list from chunk id to normalized score.
The Python dict comprehension keeps the last binding of a duplicated key. -/
def normalize_scores : List SearchResult → List (String × ℚ)
  | [] => []
  | r :: rs =>
    let scores := (r :: rs).map (fun s => s.score)
    let min_score := scores.foldl min r.score
    let max_score := scores.foldl max r.score
    let score_range := max_score - min_score
    if score_range = 0 then (r :: rs).map (fun s => (s.chunk_id, (1 : ℚ)))
    else (r :: rs).map (fun s => (s.chunk_id, (s.score - min_score) / score_range))

/-- Python d.get(key, default) for a dict built from the given bindings in
order (a later binding for the same key overwrites an earlier one). -/
def dictGet (d : List (String × ℚ)) (k : String) (dflt : ℚ) : ℚ :=
  match d.reverse.find? (fun p => p.1 == k) with
  | some p => p.2
  | none => dflt

lemma foldl_min_le_init (a : ℚ) (l : List ℚ) : l.foldl min a ≤ a := by
  induction l generalizing a with
  | nil => exact le_refl a
  | cons b t ih => exact le_trans (ih (min a b)) (min_le_left a b)

lemma foldl_min_le_mem (a : ℚ) (l : List ℚ) {x : ℚ} (hx : x ∈ l) : l.foldl min a ≤ x := by
  induction l generalizing a with
  | nil => cases hx
  | cons b t ih =>
    rcases List.mem_cons.mp hx with rfl | hx
    · exact le_trans (foldl_min_le_init (min a x) t) (min_le_right a x)
    · exact ih (min a b) hx

lemma foldl_min_mem (a : ℚ) (l : List ℚ) : l.foldl min a = a ∨ l.foldl min a ∈ l := by
  induction l generalizing a with
  | nil => exact Or.inl rfl
  | cons b t ih =>
    rcases ih (min a b) with h | h
    · rcases min_choice a b with hab | hab
      · exact Or.inl (by rw [List.foldl_cons, h, hab])
      · exact Or.inr (by rw [List.foldl_cons, h, hab]; exact List.mem_cons_self b t)
    · exact Or.inr (List.mem_cons_of_mem b h)

lemma le_foldl_max_init (a : ℚ) (l : List ℚ) : a ≤ l.foldl max a := by
  induction l generalizing a with
  | nil => exact le_refl a
  | cons b t ih => exact le_trans (le_max_left a b) (ih (max a b))

lemma le_foldl_max_mem (a : ℚ) (l : List ℚ) {x : ℚ} (hx : x ∈ l) : x ≤ l.foldl max a := by
  induction l generalizing a with
  | nil => cases hx
  | cons b t ih =>
    rcases List.mem_cons.mp hx with rfl | hx
    · exact le_trans (le_max_right a x) (le_foldl_max_init (max a x) t)
    · exact ih (max a b) hx

lemma foldl_max_mem (a : ℚ) (l : List ℚ) : l.foldl max a = a ∨ l.foldl max a ∈ l := by
  induction l generalizing a with
  | nil => exact Or.inl rfl
  | cons b t ih =>
    rcases ih (max a b) with h | h
    · rcases max_choice a b with hab | hab
      · exact Or.inl (by rw [List.foldl_cons, h, hab])
      · exact Or.inr (by rw [List.foldl_cons, h, hab]; exact List.mem_cons_self b t)
    · exact Or.inr (List.mem_cons_of_mem b h)

/-- The content of claim C4: every normalized score lies in [0, 1]; every
maximum-scored result is mapped to exactly 1; and when all results share a
single score value, every result is mapped to exactly 1. -/
def NormalizationClaim (results : List SearchResult) : Prop :=
  (∀ p ∈ normalize_scores results, 0 ≤ p.2 ∧ p.2 ≤ 1)
  ∧ (∀ r ∈ results, (∀ s ∈ results, s.score ≤ r.score) →
      (r.chunk_id, (1 : ℚ)) ∈ normalize_scores results)
  ∧ ((∀ r ∈ results, ∀ s ∈ results, r.score = s.score) →
      ∀ p ∈ normalize_scores results, p.2 = 1)

/-- Claim C4: score normalization.  For every non-empty result list, the
min-max normalization used by hybrid search maps every score into [0, 1],
maps each maximum-scored result to exactly 1, and maps every result to
exactly 1 when the list has a single distinct score value. -/
theorem claim_C4_normalization (results : List SearchResult) (hne : results ≠ []) :
    NormalizationClaim results := by
  cases results with
  | nil => exact absurd rfl hne
  | cons r rs =>
    set scores := (r :: rs).map (fun s => s.score) with hscores
    set mn := scores.foldl min r.score with hmn
    set mx := scores.foldl max r.score with hmx
    have hmem_ge : ∀ s ∈ r :: rs, mn ≤ s.score := by
      intro s hs
      exact foldl_min_le_mem r.score scores (by
        rw [hscores]; exact List.mem_map_of_mem (fun t => t.score) hs)
    have hmem_le : ∀ s ∈ r :: rs, s.score ≤ mx := by
      intro s hs
      exact le_foldl_max_mem r.score scores (by
        rw [hscores]; exact List.mem_map_of_mem (fun t => t.score) hs)
    have hmn_attained : ∃ s ∈ r :: rs, s.score = mn := by
      rcases foldl_min_mem r.score scores with h | h
      · exact ⟨r, List.mem_cons_self r rs, h.symm⟩
      · rw [hscores] at h
        obtain ⟨s, hs, hval⟩ := List.mem_map.mp h
        exact ⟨s, hs, hval⟩
    have hmx_attained : ∃ s ∈ r :: rs, s.score = mx := by
      rcases foldl_max_mem r.score scores with h | h
      · exact ⟨r, List.mem_cons_self r rs, h.symm⟩
      · rw [hscores] at h
        obtain ⟨s, hs, hval⟩ := List.mem_map.mp h
        exact ⟨s, hs, hval⟩
    by_cases hrange : mx - mn = 0
    · have hnorm : normalize_scores (r :: rs) = (r :: rs).map (fun s => (s.chunk_id, (1 : ℚ))) := by
        rw [normalize_scores]
        simp only [← hscores, ← hmn, ← hmx, if_pos hrange]
      refine ⟨?_, ?_, ?_⟩
      · intro p hp
        rw [hnorm] at hp
        obtain ⟨s, _, rfl⟩ := List.mem_map.mp hp
        norm_num
      · intro s hs _
        rw [hnorm]
        exact List.mem_map_of_mem (fun t => (t.chunk_id, (1 : ℚ))) hs
      · intro _ p hp
        rw [hnorm] at hp
        obtain ⟨s, _, rfl⟩ := List.mem_map.mp hp
        rfl
    · have hnorm : normalize_scores (r :: rs)
          = (r :: rs).map (fun s => (s.chunk_id, (s.score - mn) / (mx - mn))) := by
        rw [normalize_scores]
        simp only [← hscores, ← hmn, ← hmx, if_neg hrange]
      have hmnmx : mn ≤ mx := le_trans (hmem_ge r (List.mem_cons_self r rs))
        (hmem_le r (List.mem_cons_self r rs))
      have hpos : 0 < mx - mn := lt_of_le_of_ne (by linarith) (Ne.symm hrange)
      refine ⟨?_, ?_, ?_⟩
      · intro p hp
        rw [hnorm] at hp
        obtain ⟨s, hs, rfl⟩ := List.mem_map.mp hp
        constructor
        · exact div_nonneg (by linarith [hmem_ge s hs]) (le_of_lt hpos)
        · rw [div_le_one hpos]
          linarith [hmem_le s hs]
      · intro s hs hsmax
        have hsmx : s.score = mx := by
          obtain ⟨t, ht, htval⟩ := hmx_attained
          have h1 : s.score ≤ mx := hmem_le s hs
          have h2 : mx ≤ s.score := htval ▸ hsmax t ht
          linarith
        rw [hnorm]
        have : (s.chunk_id, (s.score - mn) / (mx - mn)) ∈
            (r :: rs).map (fun t => (t.chunk_id, (t.score - mn) / (mx - mn))) :=
          List.mem_map_of_mem _ hs
        rw [hsmx, div_self hrange] at this
        exact this
      · intro hall
        exfalso
        obtain ⟨s, hs, hsval⟩ := hmn_attained
        obtain ⟨t, ht, htval⟩ := hmx_attained
        exact hrange (by rw [← hsval, ← htval, hall t ht s hs]; ring)

/-- Witness for claim C4 on a concrete two-element result list. -/
theorem claim_C4_normalization_witness :
    ([⟨"a", "p", "t", "x", 2, 1⟩, ⟨"b", "p", "t", "y", 5, 2⟩] : List SearchResult) ≠ []
      ∧ NormalizationClaim [⟨"a", "p", "t", "x", 2, 1⟩, ⟨"b", "p", "t", "y", 5, 2⟩] :=
  ⟨by decide, claim_C4_normalization _ (by decide)⟩

lemma find?_key_unique {α : Type} (key : α → String) :
    ∀ {l : List α} {r : α}, (l.map key).Nodup → r ∈ l →
      l.find? (fun s => key s == key r) = some r := by
  intro l
  induction l with
  | nil => intro r _ hr; cases hr
  | cons a t ih =>
    intro r hnd hr
    have hnd' := hnd
    rw [List.map_cons, List.nodup_cons] at hnd'
    by_cases hak : key a = key r
    · have heq : (key a == key r) = true := by simpa using hak
      have hfind : List.find? (fun s => key s == key r) (a :: t) = some a := by
        simp only [List.find?, heq]
      rw [hfind]
      rcases List.mem_cons.mp hr with rfl | hrt
      · rfl
      · exact absurd (hak ▸ List.mem_map_of_mem key hrt) hnd'.1
    · have hne : (key a == key r) = false := by simpa using hak
      have hfind : List.find? (fun s => key s == key r) (a :: t)
          = List.find? (fun s => key s == key r) t := by
        simp only [List.find?, hne]
      rw [hfind]
      rcases List.mem_cons.mp hr with rfl | hrt
      · exact absurd rfl hak
      · exact ih hnd'.2 hrt

lemma dictGet_of_not_mem (d : List (String × ℚ)) (k : String) (dflt : ℚ)
    (h : ∀ p ∈ d, p.1 ≠ k) : dictGet d k dflt = dflt := by
  rw [dictGet]
  have : d.reverse.find? (fun p => p.1 == k) = none := by
    rw [List.find?_eq_none]
    intro p hp
    simpa using h p (List.mem_reverse.mp hp)
  rw [this]

lemma dictGet_map_eq (f : SearchResult → ℚ) (results : List SearchResult) (r : SearchResult)
    (hnd : (results.map (fun s => s.chunk_id)).Nodup) (hr : r ∈ results) (dflt : ℚ) :
    dictGet (results.map (fun s => (s.chunk_id, f s))) r.chunk_id dflt = f r := by
  rw [dictGet, ← List.map_reverse, List.find?_map]
  have hnd' : (results.reverse.map (fun s => s.chunk_id)).Nodup := by
    rw [List.map_reverse]
    exact List.nodup_reverse.mpr hnd
  have hr' : r ∈ results.reverse := List.mem_reverse.mpr hr
  have hfind := find?_key_unique (fun s : SearchResult => s.chunk_id) hnd' hr'
  have hcomp : ((fun p : String × ℚ => p.1 == r.chunk_id) ∘ (fun s => (s.chunk_id, f s)))
      = fun s : SearchResult => s.chunk_id == r.chunk_id := rfl
  rw [hcomp, hfind]
  rfl

/-- The content of claim C10 for a result list and a minimum-scored member r:
r is normalized to exactly 0, and its weighted contribution to any fused
score equals that of a chunk id the side did not retrieve at all. -/
def MinNormalizationClaim (results : List SearchResult) (r : SearchResult) : Prop :=
  dictGet (normalize_scores results) r.chunk_id 0 = 0
  ∧ ∀ (w : ℚ) (cid : String), cid ∉ results.map (fun s => s.chunk_id) →
      w * dictGet (normalize_scores results) r.chunk_id 0
        = w * dictGet (normalize_scores results) cid 0

lemma normalize_scores_keys (results : List SearchResult) :
    ∀ p ∈ normalize_scores results, p.1 ∈ results.map (fun s => s.chunk_id) := by
  intro p hp
  cases results with
  | nil => cases hp
  | cons r rs =>
    rw [normalize_scores] at hp
    by_cases hrange : ((r :: rs).map (fun s => s.score)).foldl max r.score
        - ((r :: rs).map (fun s => s.score)).foldl min r.score = 0
    · simp only [if_pos hrange] at hp
      obtain ⟨s, hs, rfl⟩ := List.mem_map.mp hp
      exact List.mem_map_of_mem _ hs
    · simp only [if_neg hrange] at hp
      obtain ⟨s, hs, rfl⟩ := List.mem_map.mp hp
      exact List.mem_map_of_mem _ hs

/-- Claim C10: implicit normalization edge case.  When a result list has at
least two distinct score values, the minimum-scored candidate is normalized
to exactly 0, so its weighted contribution to the fused score equals the
contribution of a chunk id that side did not retrieve at all. -/
theorem claim_C10_min_normalizes_to_zero (results : List SearchResult) (r : SearchResult)
    (hnd : (results.map (fun s => s.chunk_id)).Nodup) (hr : r ∈ results)
    (hmin : ∀ s ∈ results, r.score ≤ s.score)
    (htwo : ∃ s ∈ results, s.score ≠ r.score) :
    MinNormalizationClaim results r := by
  have hzero : dictGet (normalize_scores results) r.chunk_id 0 = 0 := by
    cases results with
    | nil => cases hr
    | cons r0 rs =>
      set scores := (r0 :: rs).map (fun s => s.score) with hscores
      set mn := scores.foldl min r0.score with hmn
      set mx := scores.foldl max r0.score with hmx
      have hmem_ge : ∀ s ∈ r0 :: rs, mn ≤ s.score := by
        intro s hs
        exact foldl_min_le_mem r0.score scores (by
          rw [hscores]; exact List.mem_map_of_mem (fun t => t.score) hs)
      have hmn_attained : ∃ s ∈ r0 :: rs, s.score = mn := by
        rcases foldl_min_mem r0.score scores with h | h
        · exact ⟨r0, List.mem_cons_self r0 rs, h.symm⟩
        · rw [hscores] at h
          obtain ⟨s, hs, hval⟩ := List.mem_map.mp h
          exact ⟨s, hs, hval⟩
      have hrmn : r.score = mn := by
        obtain ⟨t, ht, htval⟩ := hmn_attained
        have h1 : mn ≤ r.score := hmem_ge r hr
        have h2 : r.score ≤ mn := htval ▸ hmin t ht
        linarith
      have hrange : mx - mn ≠ 0 := by
        obtain ⟨s, hs, hsne⟩ := htwo
        have h1 : s.score ≤ mx := le_foldl_max_mem r0.score scores (by
          rw [hscores]; exact List.mem_map_of_mem (fun t => t.score) hs)
        have h2 : r.score < s.score := lt_of_le_of_ne (hmin s hs) (Ne.symm hsne)
        intro hc
        rw [hrmn] at h2
        linarith
      have hnorm : normalize_scores (r0 :: rs)
          = (r0 :: rs).map (fun s => (s.chunk_id, (s.score - mn) / (mx - mn))) := by
        rw [normalize_scores]
        simp only [← hscores, ← hmn, ← hmx, if_neg hrange]
      rw [hnorm, dictGet_map_eq _ _ _ hnd hr, hrmn]
      simp
  refine ⟨hzero, ?_⟩
  intro w cid hcid
  have habsent : dictGet (normalize_scores results) cid 0 = 0 := by
    apply dictGet_of_not_mem
    intro p hp
    intro hc
    exact hcid (hc ▸ normalize_scores_keys results p hp)
  rw [hzero, habsent]

/-- Witness for claim C10 on a concrete two-element result list with two
distinct scores, b carrying the minimum. -/
theorem claim_C10_min_normalizes_to_zero_witness :
    (([⟨"a", "p", "t", "x", 5, 1⟩, ⟨"b", "p", "t", "y", 2, 2⟩] : List SearchResult).map
        (fun s => s.chunk_id)).Nodup
      ∧ (⟨"b", "p", "t", "y", 2, 2⟩ : SearchResult) ∈
          ([⟨"a", "p", "t", "x", 5, 1⟩, ⟨"b", "p", "t", "y", 2, 2⟩] : List SearchResult)
      ∧ MinNormalizationClaim [⟨"a", "p", "t", "x", 5, 1⟩, ⟨"b", "p", "t", "y", 2, 2⟩]
          ⟨"b", "p", "t", "y", 2, 2⟩ :=
  ⟨by decide, by decide,
    claim_C10_min_normalizes_to_zero _ _ (by decide) (by decide)
      (by decide) ⟨⟨"a", "p", "t", "x", 5, 1⟩, by decide, by decide⟩⟩

/-- Row of memory_chunks matching a chunk id (the JOIN / SELECT ... WHERE
chunk_id pattern of the search paths). -/
def findChunk (db : DBState) (cid : String) : Option ChunkRow :=
  db.chunks.find? (fun mc => mc.chunk_id == cid)

/-- Placeholder row for total getD-style lookups; only ever used under a
proof that the lookup succeeds. -/
def defaultChunk : ChunkRow :=
  { chunk_id := "", file_path := "", file_type := "", chunk_text := "",
    chunk_index := 0, token_count := 0, created_at := 0, updated_at := 0, metadata := "" }

/-- SemanticIndexer.search_bm25 (lines 315-355).  The FTS5 MATCH outcome for
the query enters as the parameter lexMatch: one (chunk_id, rank statistic)
pair per matching row, in stored order.  Matching rows are joined with
memory_chunks, ordered ascending by the statistic (ORDER BY fts.rank),
limited to top_k, and numbered from 1 with the raw statistic as score. -/
def search_bm25 (db : DBState) (lexMatch : List (String × ℚ)) (top_k : Nat) :
    List SearchResult :=
  let joined := lexMatch.filterMap (fun row =>
    (findChunk db row.1).map (fun mc => (mc, row.2)))
  let ordered := (sortOnAsc (fun x => x.2) joined).take top_k
  ordered.enum.map (fun ir =>
    { chunk_id := ir.2.1.chunk_id, file_path := ir.2.1.file_path,
      file_type := ir.2.1.file_type, chunk_text := ir.2.1.chunk_text,
      score := ir.2.2, rank := ir.1 + 1 })

/-- Cosine distance as computed by the sqlite-vec extension, documented as
1 - cosine similarity; the similarity routine itself is an external numeric
collaborator and enters as the parameter cos. -/
def vec_distance_cosine (cos : List ℚ → List ℚ → ℚ) (a b : List ℚ) : ℚ :=
  1 - cos a b

/-- SemanticIndexer.search_vector, native path (lines 374-401): score every
stored embedding by cosine distance to the query embedding, join with
memory_chunks, order ascending by the distance, limit to top_k, number from
1, and report 1 - distance as the similarity score. -/
def search_vector_native (cos : List ℚ → List ℚ → ℚ) (db : DBState) (qemb : List ℚ)
    (top_k : Nat) : List SearchResult :=
  let joined := db.vecs.filterMap (fun v =>
    (findChunk db v.1).map (fun mc => (mc, vec_distance_cosine cos v.2 qemb)))
  let ordered := (sortOnAsc (fun x => x.2) joined).take top_k
  ordered.enum.map (fun ir =>
    { chunk_id := ir.2.1.chunk_id, file_path := ir.2.1.file_path,
      file_type := ir.2.1.file_type, chunk_text := ir.2.1.chunk_text,
      score := 1 - ir.2.2, rank := ir.1 + 1 })

/-- SemanticIndexer.search_vector, linear-scan fallback (lines 403-446):
compute the cosine similarity of the query against every stored embedding,
sort descending (Python stable sort), cut to top_k, then look each survivor
up in memory_chunks, keeping its precomputed 1-based position as rank and
skipping ids without a chunk row. -/
def search_vector_fallback (cos : List ℚ → List ℚ → ℚ) (db : DBState) (qemb : List ℚ)
    (top_k : Nat) : List SearchResult :=
  let similarities := db.vecs.map (fun v => (v.1, cos qemb v.2))
  let sorted := (sortOnDesc (fun x => x.2) similarities).take top_k
  sorted.enum.filterMap (fun ir =>
    (findChunk db ir.2.1).map (fun mc =>
      { chunk_id := mc.chunk_id, file_path := mc.file_path, file_type := mc.file_type,
        chunk_text := mc.chunk_text, score := ir.2.2, rank := ir.1 + 1 }))

/-- The fused score of a candidate id in search_hybrid (lines 493-502): each
side contributes its weight times its normalized score, defaulting to 0 when
the side did not retrieve the id. -/
def combinedScore (bm25_results vector_results : List SearchResult)
    (bm25_weight vector_weight : ℚ) (cid : String) : ℚ :=
  bm25_weight * dictGet (normalize_scores bm25_results) cid 0
    + vector_weight * dictGet (normalize_scores vector_results) cid 0

/-- SemanticIndexer.search_hybrid downstream of the two candidate lists
(lines 471-539): normalize both sides, fuse over the union of candidate ids,
sort descending by fused score (Python sorted is stable), truncate to top_k,
and build numbered results from memory_chunks rows, skipping absent ids.
The union is a Python set whose iteration order is unspecified; it enters as
the parameter enum, constrained by validEnum. -/
def search_hybrid (db : DBState) (bm25_results vector_results : List SearchResult)
    (enum : List String) (top_k : Nat) (bm25_weight vector_weight : ℚ) :
    List SearchResult :=
  let combined := combinedScore bm25_results vector_results bm25_weight vector_weight
  let sorted_chunk_ids := (sortOnDesc combined enum).take top_k
  sorted_chunk_ids.enum.filterMap (fun ic =>
    (findChunk db ic.2).map (fun mc =>
      { chunk_id := mc.chunk_id, file_path := mc.file_path, file_type := mc.file_type,
        chunk_text := mc.chunk_text, score := combined ic.2, rank := ic.1 + 1 }))

/-- An admissible iteration order of the Python set union of the candidate
ids of the two sides: each id exactly once, and exactly the retrieved ids. -/
def validEnum (bm25_results vector_results : List SearchResult)
    (enum : List String) : Prop :=
  enum.Nodup
  ∧ ∀ cid, cid ∈ enum ↔
      (cid ∈ bm25_results.map (fun s => s.chunk_id)
        ∨ cid ∈ vector_results.map (fun s => s.chunk_id))

/-- SemanticIndexer.search_hybrid end to end (lines 448-539): each side
fetches up to 2*top_k candidates, the vector side through the native path,
then the candidates are fused. -/
def search_hybrid_full (db : DBState) (lexMatch : List (String × ℚ))
    (cos : List ℚ → List ℚ → ℚ) (qemb : List ℚ) (enum : List String)
    (top_k : Nat) (bm25_weight vector_weight : ℚ) : List SearchResult :=
  search_hybrid db (search_bm25 db lexMatch (top_k * 2))
    (search_vector_native cos db qemb (top_k * 2)) enum top_k bm25_weight vector_weight

lemma sortOnAsc_perm {α κ : Type} [LinearOrder κ] (key : α → κ) (l : List α) :
    (sortOnAsc key l).Perm l :=
  List.perm_insertionSort _ l

lemma sortOnDesc_perm {α κ : Type} [LinearOrder κ] (key : α → κ) (l : List α) :
    (sortOnDesc key l).Perm l :=
  List.perm_insertionSort _ l

lemma sortOnAsc_sorted {α κ : Type} [LinearOrder κ] (key : α → κ) (l : List α) :
    (sortOnAsc key l).Sorted (fun a b => key a ≤ key b) := by
  haveI : IsTotal α (fun a b => key a ≤ key b) := ⟨fun a b => le_total (key a) (key b)⟩
  haveI : IsTrans α (fun a b => key a ≤ key b) :=
    ⟨fun a b c hab hbc => le_trans hab hbc⟩
  exact List.sorted_insertionSort _ l

lemma sortOnDesc_sorted {α κ : Type} [LinearOrder κ] (key : α → κ) (l : List α) :
    (sortOnDesc key l).Sorted (fun a b => key b ≤ key a) := by
  haveI : IsTotal α (fun a b => key b ≤ key a) := ⟨fun a b => le_total (key b) (key a)⟩
  haveI : IsTrans α (fun a b => key b ≤ key a) :=
    ⟨fun a b c hab hbc => le_trans hbc hab⟩
  exact List.sorted_insertionSort _ l

lemma sortOnAsc_length {α κ : Type} [LinearOrder κ] (key : α → κ) (l : List α) :
    (sortOnAsc key l).length = l.length :=
  (sortOnAsc_perm key l).length_eq

lemma sortOnDesc_length {α κ : Type} [LinearOrder κ] (key : α → κ) (l : List α) :
    (sortOnDesc key l).length = l.length :=
  (sortOnDesc_perm key l).length_eq

lemma filterMap_some_eq_map {α β γ : Type} (f : α → Option β) (g : α → β → γ) (dflt : β) :
    ∀ (l : List α), (∀ a ∈ l, (f a).isSome) →
      l.filterMap (fun a => (f a).map (g a)) = l.map (fun a => g a ((f a).getD dflt)) := by
  intro l
  induction l with
  | nil => intro _; rfl
  | cons a t ih =>
    intro h
    have ha := h a (List.mem_cons_self a t)
    cases hfa : f a with
    | none => rw [hfa] at ha; cases ha
    | some b =>
      rw [List.filterMap_cons, List.map_cons, hfa]
      simp only [Option.map_some, Option.getD_some]
      rw [ih (fun x hx => h x (List.mem_cons_of_mem a hx))]
      rfl

lemma findChunk_getD_id (db : DBState) (cid : String)
    (h : (findChunk db cid).isSome) : ((findChunk db cid).getD defaultChunk).chunk_id = cid := by
  cases hfc : findChunk db cid with
  | none => rw [hfc] at h; cases h
  | some mc =>
    have := List.find?_some hfc
    simp only [Option.getD_some]
    simpa using this

lemma search_hybrid_eq_map (db : DBState) (bmR vecR : List SearchResult)
    (enum : List String) (k : Nat) (w_b w_v : ℚ)
    (hpres : ∀ cid ∈ enum, (findChunk db cid).isSome) :
    search_hybrid db bmR vecR enum k w_b w_v
      = ((sortOnDesc (combinedScore bmR vecR w_b w_v) enum).take k).enum.map
          (fun ic =>
            { chunk_id := ((findChunk db ic.2).getD defaultChunk).chunk_id,
              file_path := ((findChunk db ic.2).getD defaultChunk).file_path,
              file_type := ((findChunk db ic.2).getD defaultChunk).file_type,
              chunk_text := ((findChunk db ic.2).getD defaultChunk).chunk_text,
              score := combinedScore bmR vecR w_b w_v ic.2,
              rank := ic.1 + 1 }) := by
  have hsub : ∀ cid ∈ (sortOnDesc (combinedScore bmR vecR w_b w_v) enum).take k,
      cid ∈ enum := by
    intro cid hc
    exact (sortOnDesc_perm _ enum).mem_iff.mp
      (List.mem_of_mem_take hc)
  exact filterMap_some_eq_map
    (fun ic : Nat × String => findChunk db ic.2)
    (fun (ic : Nat × String) (mc : ChunkRow) =>
      ({ chunk_id := mc.chunk_id, file_path := mc.file_path, file_type := mc.file_type,
         chunk_text := mc.chunk_text,
         score := combinedScore bmR vecR w_b w_v ic.2, rank := ic.1 + 1 } : SearchResult))
    defaultChunk
    ((sortOnDesc (combinedScore bmR vecR w_b w_v) enum).take k).enum
    (fun ic hic => hpres ic.2 (hsub ic.2 (List.snd_mem_of_mem_enum hic)))

lemma search_hybrid_ids (db : DBState) (bmR vecR : List SearchResult)
    (enum : List String) (k : Nat) (w_b w_v : ℚ)
    (hpres : ∀ cid ∈ enum, (findChunk db cid).isSome) :
    (search_hybrid db bmR vecR enum k w_b w_v).map (fun r => r.chunk_id)
      = (sortOnDesc (combinedScore bmR vecR w_b w_v) enum).take k := by
  rw [search_hybrid_eq_map db bmR vecR enum k w_b w_v hpres, List.map_map]
  have hsub : ∀ cid ∈ (sortOnDesc (combinedScore bmR vecR w_b w_v) enum).take k,
      cid ∈ enum := by
    intro cid hc
    exact (sortOnDesc_perm _ enum).mem_iff.mp (List.mem_of_mem_take hc)
  have h1 : ∀ ic ∈ ((sortOnDesc (combinedScore bmR vecR w_b w_v) enum).take k).enum,
      (((findChunk db ic.2).getD defaultChunk).chunk_id) = ic.2 := by
    intro ic hic
    exact findChunk_getD_id db ic.2 (hpres ic.2 (hsub ic.2 (List.snd_mem_of_mem_enum hic)))
  calc ((sortOnDesc (combinedScore bmR vecR w_b w_v) enum).take k).enum.map
        (fun ic => ((findChunk db ic.2).getD defaultChunk).chunk_id)
      = ((sortOnDesc (combinedScore bmR vecR w_b w_v) enum).take k).enum.map
          (fun ic => ic.2) := List.map_congr_left h1
    _ = (sortOnDesc (combinedScore bmR vecR w_b w_v) enum).take k :=
        List.enum_map_snd _

/-- The content of claim C5, with bmR and vecR abbreviating the two candidate
fetches of up to 2*top_k results each: the hybrid output has min(top_k, union
size) results; ranks are consecutive and 1-based; every score is the weighted
fused score of its id with an absent side contributing 0; every returned id
was retrieved by one of the sides; scores descend; and every enumerated id
left out of the output scores no more than any returned result. -/
def HybridFusionClaim (db : DBState) (lexMatch : List (String × ℚ))
    (cos : List ℚ → List ℚ → ℚ) (qemb : List ℚ) (enum : List String)
    (top_k : Nat) (w_b w_v : ℚ) : Prop :=
  (search_hybrid_full db lexMatch cos qemb enum top_k w_b w_v).length
      = min top_k enum.length
  ∧ (∀ (i : Nat) (h : i < (search_hybrid_full db lexMatch cos qemb enum top_k w_b w_v).length),
      ((search_hybrid_full db lexMatch cos qemb enum top_k w_b w_v).get ⟨i, h⟩).rank = i + 1)
  ∧ (∀ r ∈ search_hybrid_full db lexMatch cos qemb enum top_k w_b w_v,
      r.score = combinedScore (search_bm25 db lexMatch (top_k * 2))
        (search_vector_native cos db qemb (top_k * 2)) w_b w_v r.chunk_id)
  ∧ (∀ r ∈ search_hybrid_full db lexMatch cos qemb enum top_k w_b w_v,
      r.chunk_id ∈ (search_bm25 db lexMatch (top_k * 2)).map (fun s => s.chunk_id)
        ∨ r.chunk_id ∈ (search_vector_native cos db qemb (top_k * 2)).map
            (fun s => s.chunk_id))
  ∧ ((search_hybrid_full db lexMatch cos qemb enum top_k w_b w_v).map
        (fun r => r.score)).Sorted (fun a b => b ≤ a)
  ∧ (∀ cid ∈ enum,
      cid ∉ (search_hybrid_full db lexMatch cos qemb enum top_k w_b w_v).map
          (fun r => r.chunk_id) →
      ∀ r ∈ search_hybrid_full db lexMatch cos qemb enum top_k w_b w_v,
        combinedScore (search_bm25 db lexMatch (top_k * 2))
          (search_vector_native cos db qemb (top_k * 2)) w_b w_v cid ≤ r.score)

/-- Claim C5: hybrid fusion formula.  For every query (entering as the match
rows and the query embedding), every top_k and weights, every admissible
enumeration of the candidate union, and a chunk table containing every
enumerated candidate, search_hybrid fuses the union with score
lexical_weight * normalized_lexical + vector_weight * normalized_vector
(absent side contributing 0), sorts it descending, truncates to top_k, and
ranks consecutively from 1. -/
theorem claim_C5_hybrid_fusion (db : DBState) (lexMatch : List (String × ℚ))
    (cos : List ℚ → List ℚ → ℚ) (qemb : List ℚ) (enum : List String)
    (top_k : Nat) (w_b w_v : ℚ)
    (henum : validEnum (search_bm25 db lexMatch (top_k * 2))
        (search_vector_native cos db qemb (top_k * 2)) enum)
    (hpres : ∀ cid ∈ enum, (findChunk db cid).isSome) :
    HybridFusionClaim db lexMatch cos qemb enum top_k w_b w_v := by
  set bmR := search_bm25 db lexMatch (top_k * 2) with hbmR
  set vecR := search_vector_native cos db qemb (top_k * 2) with hvecR
  set cs := combinedScore bmR vecR w_b w_v with hcs
  set s := (sortOnDesc cs enum).take top_k with hs
  have hout : search_hybrid_full db lexMatch cos qemb enum top_k w_b w_v
      = s.enum.map (fun ic =>
          { chunk_id := ((findChunk db ic.2).getD defaultChunk).chunk_id,
            file_path := ((findChunk db ic.2).getD defaultChunk).file_path,
            file_type := ((findChunk db ic.2).getD defaultChunk).file_type,
            chunk_text := ((findChunk db ic.2).getD defaultChunk).chunk_text,
            score := cs ic.2,
            rank := ic.1 + 1 }) :=
    search_hybrid_eq_map db bmR vecR enum top_k w_b w_v hpres
  have hids : (search_hybrid_full db lexMatch cos qemb enum top_k w_b w_v).map
      (fun r => r.chunk_id) = s :=
    search_hybrid_ids db bmR vecR enum top_k w_b w_v hpres
  have hsenum : ∀ cid ∈ s, cid ∈ enum := by
    intro cid hc
    exact (sortOnDesc_perm cs enum).mem_iff.mp (List.mem_of_mem_take hc)
  have hsorted_full : (sortOnDesc cs enum).Sorted (fun a b => cs b ≤ cs a) :=
    sortOnDesc_sorted cs enum
  have hid_of_mem : ∀ r ∈ search_hybrid_full db lexMatch cos qemb enum top_k w_b w_v,
      r.score = cs r.chunk_id ∧ r.chunk_id ∈ s := by
    intro r hr
    rw [hout] at hr
    obtain ⟨ic, hic, rfl⟩ := List.mem_map.mp hr
    have hmem : ic.2 ∈ s := List.snd_mem_of_mem_enum hic
    have hid : ((findChunk db ic.2).getD defaultChunk).chunk_id = ic.2 :=
      findChunk_getD_id db ic.2 (hpres ic.2 (hsenum ic.2 hmem))
    constructor
    · simp only [hid]
    · simpa only [hid] using hmem
  refine ⟨?_, ?_, ?_, ?_, ?_, ?_⟩
  · rw [hout, List.length_map, List.enum_length, hs, List.length_take,
      sortOnDesc_length]
  · intro i h
    have h' : i < s.enum.length := by
      rw [hout] at h
      simpa using h
    rw [List.get_eq_getElem]
    conv in search_hybrid_full db lexMatch cos qemb enum top_k w_b w_v => rw [hout]
    rw [List.getElem_map, List.getElem_enum]
  · intro r hr
    exact (hid_of_mem r hr).1
  · intro r hr
    exact (henum.2 r.chunk_id).mp (hsenum r.chunk_id (hid_of_mem r hr).2)
  · rw [hout, List.map_map]
    have hcomp : ((fun r : SearchResult => r.score) ∘ (fun ic : Nat × String =>
        ({ chunk_id := ((findChunk db ic.2).getD defaultChunk).chunk_id,
           file_path := ((findChunk db ic.2).getD defaultChunk).file_path,
           file_type := ((findChunk db ic.2).getD defaultChunk).file_type,
           chunk_text := ((findChunk db ic.2).getD defaultChunk).chunk_text,
           score := cs ic.2,
           rank := ic.1 + 1 } : SearchResult)))
        = (fun ic : Nat × String => cs ic.2) := rfl
    rw [hcomp]
    have hmapeq : s.enum.map (fun ic : Nat × String => cs ic.2)
        = (s.enum.map Prod.snd).map cs := by
      rw [List.map_map]
      rfl
    rw [hmapeq, List.enum_map_snd]
    have hsorted_s : s.Sorted (fun a b => cs b ≤ cs a) :=
      List.Pairwise.sublist (List.take_sublist _ _) hsorted_full
    exact (List.pairwise_map).mpr hsorted_s
  · intro cid hcid hnotin r hr
    rw [hids] at hnotin
    have hcid_full : cid ∈ sortOnDesc cs enum :=
      (sortOnDesc_perm cs enum).mem_iff.mpr hcid
    have hcid_drop : cid ∈ (sortOnDesc cs enum).drop top_k := by
      have hsplit : sortOnDesc cs enum
          = (sortOnDesc cs enum).take top_k ++ (sortOnDesc cs enum).drop top_k :=
        (List.take_append_drop top_k (sortOnDesc cs enum)).symm
      have hcid_app : cid ∈ (sortOnDesc cs enum).take top_k
          ++ (sortOnDesc cs enum).drop top_k := by
        rw [← hsplit]
        exact hcid_full
      rcases List.mem_append.mp hcid_app with h | h
      · rw [← hs] at h
        exact absurd h hnotin
      · exact h
    obtain ⟨hscore, hmem⟩ := hid_of_mem r hr
    have := List.Sorted.rel_of_mem_take_of_mem_drop hsorted_full hmem hcid_drop
    rw [hscore]
    exact this

/-- Concrete chunk row "a" for witnesses and counterexamples. -/
def chA : ChunkRow :=
  { chunk_id := "a", file_path := "pa", file_type := "other", chunk_text := "alpha",
    chunk_index := 0, token_count := 1, created_at := 0, updated_at := 0, metadata := "" }

/-- Concrete chunk row "b" for witnesses and counterexamples. -/
def chB : ChunkRow :=
  { chunk_id := "b", file_path := "pb", file_type := "other", chunk_text := "beta",
    chunk_index := 0, token_count := 1, created_at := 0, updated_at := 0, metadata := "" }

/-- Concrete two-chunk corpus with no stored vectors. -/
def twoChunkDB : DBState :=
  { chunks := [chA, chB], files := [], vecs := [] }

/-- Trivial cosine routine for scenarios whose vector side is empty. -/
def zeroCos : List ℚ → List ℚ → ℚ := fun _ _ => 0

/-- Witness for claim C5: two lexical candidates, no vector candidates,
top_k = 1, the default weights 3/10 and 7/10. -/
theorem claim_C5_hybrid_fusion_witness :
    validEnum (search_bm25 twoChunkDB [("a", 1), ("b", 2)] (1 * 2))
        (search_vector_native zeroCos twoChunkDB [] (1 * 2)) ["a", "b"]
      ∧ (∀ cid ∈ (["a", "b"] : List String), (findChunk twoChunkDB cid).isSome)
      ∧ HybridFusionClaim twoChunkDB [("a", 1), ("b", 2)] zeroCos [] ["a", "b"]
          1 (3/10) (7/10) := by
  have h1 : (search_bm25 twoChunkDB [("a", 1), ("b", 2)] (1 * 2)).map
      (fun s => s.chunk_id) = ["a", "b"] := by decide
  have h2 : (search_vector_native zeroCos twoChunkDB [] (1 * 2)).map
      (fun s => s.chunk_id) = [] := by decide
  have henum : validEnum (search_bm25 twoChunkDB [("a", 1), ("b", 2)] (1 * 2))
      (search_vector_native zeroCos twoChunkDB [] (1 * 2)) ["a", "b"] := by
    refine ⟨by decide, ?_⟩
    intro cid
    rw [h1, h2]
    simp
  exact ⟨henum, by decide,
    claim_C5_hybrid_fusion twoChunkDB [("a", 1), ("b", 2)] zeroCos [] ["a", "b"]
      1 (3/10) (7/10) henum (by decide)⟩

lemma eq_of_perm_of_pairwise_strict {α : Type} (key : α → ℚ) :
    ∀ {l₁ l₂ : List α}, l₁.Perm l₂ → l₁.Pairwise (fun a b => key b < key a) →
      l₂.Pairwise (fun a b => key b < key a) → l₁ = l₂ := by
  intro l₁
  induction l₁ with
  | nil =>
    intro l₂ hperm _ _
    exact (hperm.nil_eq).symm ▸ rfl
  | cons a t₁ ih =>
    intro l₂ hperm h₁ h₂
    cases l₂ with
    | nil => exact absurd hperm.length_eq (by simp)
    | cons b t₂ =>
      have hab : a = b := by
        by_contra hne
        have ha2 : a ∈ b :: t₂ := hperm.mem_iff.mp (List.mem_cons_self a t₁)
        have hb1 : b ∈ a :: t₁ := hperm.mem_iff.mpr (List.mem_cons_self b t₂)
        have hat2 : a ∈ t₂ := by
          rcases List.mem_cons.mp ha2 with h | h
          · exact absurd h hne
          · exact h
        have hbt1 : b ∈ t₁ := by
          rcases List.mem_cons.mp hb1 with h | h
          · exact absurd h.symm hne
          · exact h
        have h1 : key b < key a := (List.pairwise_cons.mp h₁).1 b hbt1
        have h2 : key a < key b := (List.pairwise_cons.mp h₂).1 a hat2
        linarith
      subst hab
      have htail : t₁.Perm t₂ := hperm.cons_inv
      rw [ih htail (List.pairwise_cons.mp h₁).2 (List.pairwise_cons.mp h₂).2]

lemma pairwise_ne_map_inj {α β : Type} (f : α → β) {l : List α}
    (h : (l.map f).Pairwise (fun a b => a ≠ b)) :
    ∀ a ∈ l, ∀ b ∈ l, f a = f b → a = b := by
  induction l with
  | nil => intro a ha; cases ha
  | cons c t ih =>
    intro a ha b hb hfab
    rw [List.map_cons, List.pairwise_cons] at h
    rcases List.mem_cons.mp ha with rfl | hat
    · rcases List.mem_cons.mp hb with rfl | hbt
      · rfl
      · exact absurd hfab (h.1 (f b) (List.mem_map_of_mem f hbt))
    · rcases List.mem_cons.mp hb with rfl | hbt
      · exact absurd hfab.symm (h.1 (f a) (List.mem_map_of_mem f hat))
      · exact ih h.2 a hat b hbt hfab

lemma enum_map_snd_comp {α β : Type} (l : List α) (g : α → β) :
    l.enum.map (fun ic => g ic.2) = l.map g := by
  have h : (fun ic : Nat × α => g ic.2) = g ∘ Prod.snd := rfl
  rw [h, ← List.map_map, List.enum_map_snd]

/-- If two results of a list with duplicate-free ids have distinct scores,
their normalized scores are strictly ordered the same way. -/
lemma dictGet_normalize_lt (results : List SearchResult)
    (hnd : (results.map (fun s => s.chunk_id)).Nodup)
    {r r' : SearchResult} (hr : r ∈ results) (hr' : r' ∈ results)
    (hlt : r.score < r'.score) :
    dictGet (normalize_scores results) r.chunk_id 0
      < dictGet (normalize_scores results) r'.chunk_id 0 := by
  cases results with
  | nil => cases hr
  | cons r0 rs =>
    set scores := (r0 :: rs).map (fun s => s.score) with hscores
    set mn := scores.foldl min r0.score with hmn
    set mx := scores.foldl max r0.score with hmx
    have hge : ∀ s ∈ r0 :: rs, mn ≤ s.score := by
      intro s hs
      exact foldl_min_le_mem r0.score scores (by
        rw [hscores]; exact List.mem_map_of_mem (fun t => t.score) hs)
    have hle : ∀ s ∈ r0 :: rs, s.score ≤ mx := by
      intro s hs
      exact le_foldl_max_mem r0.score scores (by
        rw [hscores]; exact List.mem_map_of_mem (fun t => t.score) hs)
    have hrange : mx - mn ≠ 0 := by
      have h1 : mn ≤ r.score := hge r hr
      have h2 : r'.score ≤ mx := hle r' hr'
      intro hc
      linarith
    have hpos : (0 : ℚ) < mx - mn := by
      have h1 : mn ≤ r.score := hge r hr
      have h2 : r'.score ≤ mx := hle r' hr'
      have : mn ≤ mx := by linarith
      exact lt_of_le_of_ne (by linarith) (Ne.symm hrange)
    have hnorm : normalize_scores (r0 :: rs)
        = (r0 :: rs).map (fun s => (s.chunk_id, (s.score - mn) / (mx - mn))) := by
      rw [normalize_scores]
      simp only [← hscores, ← hmn, ← hmx, if_neg hrange]
    rw [hnorm, dictGet_map_eq _ _ _ hnd hr, dictGet_map_eq _ _ _ hnd hr']
    exact div_lt_div_of_pos_right (by linarith) hpos

lemma search_bm25_eq_map (db : DBState) (lexMatch : List (String × ℚ)) (k : Nat)
    (hpres : ∀ row ∈ lexMatch, (findChunk db row.1).isSome) :
    search_bm25 db lexMatch k
      = ((sortOnAsc (fun x : ChunkRow × ℚ => x.2)
            (lexMatch.map (fun row => ((findChunk db row.1).getD defaultChunk, row.2)))).take
              k).enum.map
          (fun ir =>
            { chunk_id := ir.2.1.chunk_id, file_path := ir.2.1.file_path,
              file_type := ir.2.1.file_type, chunk_text := ir.2.1.chunk_text,
              score := ir.2.2, rank := ir.1 + 1 }) := by
  have hj : lexMatch.filterMap (fun row => (findChunk db row.1).map (fun mc => (mc, row.2)))
      = lexMatch.map (fun row => ((findChunk db row.1).getD defaultChunk, row.2)) :=
    filterMap_some_eq_map (fun row : String × ℚ => findChunk db row.1)
      (fun row mc => (mc, row.2)) defaultChunk lexMatch hpres
  simp only [search_bm25]
  rw [hj]

lemma search_bm25_ids (db : DBState) (lexMatch : List (String × ℚ)) (k : Nat)
    (hpres : ∀ row ∈ lexMatch, (findChunk db row.1).isSome) :
    (search_bm25 db lexMatch k).map (fun r => r.chunk_id)
      = ((sortOnAsc (fun x : ChunkRow × ℚ => x.2)
            (lexMatch.map (fun row => ((findChunk db row.1).getD defaultChunk, row.2)))).take
              k).map (fun x => x.1.chunk_id) := by
  rw [search_bm25_eq_map db lexMatch k hpres, List.map_map]
  exact enum_map_snd_comp _ (fun x : ChunkRow × ℚ => x.1.chunk_id)

lemma pairwise_enum_of_pairwise {α : Type} {R : α → α → Prop} {l : List α}
    (h : l.Pairwise R) : l.enum.Pairwise (fun a b => R a.2 b.2) := by
  have h2 : List.Pairwise R (l.enum.map Prod.snd) := by
    rw [List.enum_map_snd]
    exact h
  exact (@List.pairwise_map _ _ Prod.snd R l.enum).mp h2

lemma search_bm25_pairwise_score (db : DBState) (lexMatch : List (String × ℚ)) (k : Nat)
    (hpres : ∀ row ∈ lexMatch, (findChunk db row.1).isSome) :
    (search_bm25 db lexMatch k).Pairwise (fun r r' => r.score ≤ r'.score) := by
  rw [search_bm25_eq_map db lexMatch k hpres]
  have hsorted : (sortOnAsc (fun x : ChunkRow × ℚ => x.2)
      (lexMatch.map (fun row => ((findChunk db row.1).getD defaultChunk, row.2)))).Sorted
        (fun a b => a.2 ≤ b.2) :=
    sortOnAsc_sorted _ _
  have htake := List.Pairwise.sublist (List.take_sublist k _) hsorted
  have henum := pairwise_enum_of_pairwise htake
  exact List.Pairwise.map _ (fun a b h => h) henum

lemma search_vector_native_eq_map (cos : List ℚ → List ℚ → ℚ) (db : DBState)
    (qemb : List ℚ) (k : Nat)
    (hpres : ∀ v ∈ db.vecs, (findChunk db v.1).isSome) :
    search_vector_native cos db qemb k
      = ((sortOnAsc (fun x : ChunkRow × ℚ => x.2)
            (db.vecs.map (fun v => ((findChunk db v.1).getD defaultChunk,
              vec_distance_cosine cos v.2 qemb)))).take k).enum.map
          (fun ir =>
            { chunk_id := ir.2.1.chunk_id, file_path := ir.2.1.file_path,
              file_type := ir.2.1.file_type, chunk_text := ir.2.1.chunk_text,
              score := 1 - ir.2.2, rank := ir.1 + 1 }) := by
  have hj : db.vecs.filterMap (fun v => (findChunk db v.1).map
        (fun mc => (mc, vec_distance_cosine cos v.2 qemb)))
      = db.vecs.map (fun v => ((findChunk db v.1).getD defaultChunk,
          vec_distance_cosine cos v.2 qemb)) :=
    filterMap_some_eq_map (fun v : String × List ℚ => findChunk db v.1)
      (fun v mc => (mc, vec_distance_cosine cos v.2 qemb)) defaultChunk db.vecs hpres
  simp only [search_vector_native]
  rw [hj]

lemma search_vector_native_ids (cos : List ℚ → List ℚ → ℚ) (db : DBState)
    (qemb : List ℚ) (k : Nat)
    (hpres : ∀ v ∈ db.vecs, (findChunk db v.1).isSome) :
    (search_vector_native cos db qemb k).map (fun r => r.chunk_id)
      = ((sortOnAsc (fun x : ChunkRow × ℚ => x.2)
            (db.vecs.map (fun v => ((findChunk db v.1).getD defaultChunk,
              vec_distance_cosine cos v.2 qemb)))).take k).map (fun x => x.1.chunk_id) := by
  rw [search_vector_native_eq_map cos db qemb k hpres, List.map_map]
  exact enum_map_snd_comp _ (fun x : ChunkRow × ℚ => x.1.chunk_id)

lemma search_vector_native_pairwise_score (cos : List ℚ → List ℚ → ℚ) (db : DBState)
    (qemb : List ℚ) (k : Nat)
    (hpres : ∀ v ∈ db.vecs, (findChunk db v.1).isSome) :
    (search_vector_native cos db qemb k).Pairwise (fun r r' => r'.score ≤ r.score) := by
  rw [search_vector_native_eq_map cos db qemb k hpres]
  have hsorted : (sortOnAsc (fun x : ChunkRow × ℚ => x.2)
      (db.vecs.map (fun v => ((findChunk db v.1).getD defaultChunk,
        vec_distance_cosine cos v.2 qemb)))).Sorted (fun a b => a.2 ≤ b.2) :=
    sortOnAsc_sorted _ _
  have htake := List.Pairwise.sublist (List.take_sublist k _) hsorted
  have henum := pairwise_enum_of_pairwise htake
  exact List.Pairwise.map _ (fun a b h => by
    simp only
    linarith [h]) henum

lemma search_bm25_nil (db : DBState) (k : Nat) : search_bm25 db [] k = [] := by
  simp [search_bm25, sortOnAsc, List.insertionSort]

lemma search_vector_native_empty (cos : List ℚ → List ℚ → ℚ) (db : DBState)
    (qemb : List ℚ) (k : Nat) (h : db.vecs = []) :
    search_vector_native cos db qemb k = [] := by
  simp [search_vector_native, h, sortOnAsc, List.insertionSort]

lemma dictGet_nil (cid : String) (dflt : ℚ) : dictGet [] cid dflt = dflt := rfl

lemma sortOnDesc_strict_of_inj {α : Type} (key : α → ℚ) (l : List α)
    (hnd : l.Nodup)
    (hinj : ∀ a ∈ l, ∀ b ∈ l, key a = key b → a = b) :
    (sortOnDesc key l).Pairwise (fun a b => key b < key a) := by
  have hsorted := sortOnDesc_sorted key l
  have hperm := sortOnDesc_perm key l
  have hnd' : (sortOnDesc key l).Pairwise (fun a b => a ≠ b) := hperm.nodup_iff.mpr hnd
  have hand := List.Pairwise.and hsorted hnd'
  refine hand.imp_of_mem ?_
  intro a b ha hb hcon
  refine lt_of_le_of_ne hcon.1 ?_
  intro hkey
  exact hcon.2 (hinj b (hperm.subset hb) a (hperm.subset ha) hkey).symm

lemma weighted_norm_inj (results : List SearchResult) (w : ℚ) (hw : 0 < w)
    (hnd : (results.map (fun s => s.chunk_id)).Nodup)
    (hdist : (results.map (fun s => s.score)).Pairwise (fun a b => a ≠ b)) :
    ∀ a ∈ results.map (fun s => s.chunk_id), ∀ b ∈ results.map (fun s => s.chunk_id),
      w * dictGet (normalize_scores results) a 0 = w * dictGet (normalize_scores results) b 0
        → a = b := by
  intro a ha b hb heq
  obtain ⟨ra, hra, rfl⟩ := List.mem_map.mp ha
  obtain ⟨rb, hrb, rfl⟩ := List.mem_map.mp hb
  have hscore : ra.score = rb.score := by
    rcases lt_trichotomy ra.score rb.score with h | h | h
    · exfalso
      have h1 := dictGet_normalize_lt results hnd hra hrb h
      have h2 := mul_lt_mul_of_pos_left h1 hw
      linarith
    · exact h
    · exfalso
      have h1 := dictGet_normalize_lt results hnd hrb hra h
      have h2 := mul_lt_mul_of_pos_left h1 hw
      linarith
  have hrr : ra = rb := pairwise_ne_map_inj (fun s => s.score) hdist ra hra rb hrb hscore
  rw [hrr]

lemma weighted_norm_strict_asc (results : List SearchResult) (w : ℚ) (hw : 0 < w)
    (hnd : (results.map (fun s => s.chunk_id)).Nodup)
    (hdist : (results.map (fun s => s.score)).Pairwise (fun a b => a ≠ b))
    (hasc : results.Pairwise (fun r r' => r.score ≤ r'.score)) :
    (results.map (fun s => s.chunk_id)).Pairwise
      (fun a b => w * dictGet (normalize_scores results) a 0
        < w * dictGet (normalize_scores results) b 0) := by
  refine (List.pairwise_map).mpr ?_
  have hne : results.Pairwise (fun r r' => r.score ≠ r'.score) := (List.pairwise_map).mp hdist
  have hand := List.Pairwise.and hasc hne
  refine hand.imp_of_mem ?_
  intro r r' hr hr' hcon
  have hlt : r.score < r'.score := lt_of_le_of_ne hcon.1 hcon.2
  exact mul_lt_mul_of_pos_left (dictGet_normalize_lt results hnd hr hr' hlt) hw

lemma weighted_norm_strict_desc (results : List SearchResult) (w : ℚ) (hw : 0 < w)
    (hnd : (results.map (fun s => s.chunk_id)).Nodup)
    (hdist : (results.map (fun s => s.score)).Pairwise (fun a b => a ≠ b))
    (hdesc : results.Pairwise (fun r r' => r'.score ≤ r.score)) :
    (results.map (fun s => s.chunk_id)).Pairwise
      (fun a b => w * dictGet (normalize_scores results) b 0
        < w * dictGet (normalize_scores results) a 0) := by
  refine (List.pairwise_map).mpr ?_
  have hne : results.Pairwise (fun r r' => r.score ≠ r'.score) := (List.pairwise_map).mp hdist
  have hand := List.Pairwise.and hdesc hne
  refine hand.imp_of_mem ?_
  intro r r' hr hr' hcon
  have hlt : r'.score < r.score := lt_of_le_of_ne hcon.1 (Ne.symm hcon.2)
  exact mul_lt_mul_of_pos_left (dictGet_normalize_lt results hnd hr' hr hlt) hw

/-- Amended claim C6, vector half: when the lexical pass has no match rows
and the vector candidate scores are pairwise distinct, vector-only search
returns the same ids in the same order as the hybrid path with
lexical weight 0 and positive vector weight. -/
def VectorModeEquiv : Prop :=
  ∀ (db : DBState) (cos : List ℚ → List ℚ → ℚ) (qemb : List ℚ)
    (enum : List String) (top_k : Nat) (w_v : ℚ),
    0 < w_v →
    ((search_vector_native cos db qemb (top_k * 2)).map (fun r => r.chunk_id)).Nodup →
    ((search_vector_native cos db qemb (top_k * 2)).map (fun r => r.score)).Pairwise
      (fun a b => a ≠ b) →
    validEnum (search_bm25 db [] (top_k * 2))
      (search_vector_native cos db qemb (top_k * 2)) enum →
    (∀ cid ∈ enum, (findChunk db cid).isSome) →
    (∀ v ∈ db.vecs, (findChunk db v.1).isSome) →
    (search_hybrid_full db [] cos qemb enum top_k 0 w_v).map (fun r => r.chunk_id)
      = (search_vector_native cos db qemb top_k).map (fun r => r.chunk_id)

/-- Amended claim C6, lexical half: the claimed equality fails; instead, when
the corpus stores no vectors, the lexical pass matches at most top_k rows
with pairwise distinct statistics, the hybrid path with vector weight 0 and
positive lexical weight returns exactly the REVERSE of the lexical-only id
list, because min-max normalization is increasing in the raw statistic while
the lexical pass orders ascending by it and fusion sorts descending. -/
def LexicalModeReversed : Prop :=
  ∀ (db : DBState) (lexMatch : List (String × ℚ)) (cos : List ℚ → List ℚ → ℚ)
    (qemb : List ℚ) (enum : List String) (top_k : Nat) (w_b : ℚ),
    0 < w_b →
    db.vecs = [] →
    lexMatch.length ≤ top_k →
    ((search_bm25 db lexMatch (top_k * 2)).map (fun r => r.chunk_id)).Nodup →
    ((search_bm25 db lexMatch (top_k * 2)).map (fun r => r.score)).Pairwise
      (fun a b => a ≠ b) →
    validEnum (search_bm25 db lexMatch (top_k * 2))
      (search_vector_native cos db qemb (top_k * 2)) enum →
    (∀ cid ∈ enum, (findChunk db cid).isSome) →
    (∀ row ∈ lexMatch, (findChunk db row.1).isSome) →
    (search_hybrid_full db lexMatch cos qemb enum top_k w_b 0).map (fun r => r.chunk_id)
      = ((search_bm25 db lexMatch top_k).map (fun r => r.chunk_id)).reverse

lemma vector_mode_equiv_holds : VectorModeEquiv := by
  intro db cos qemb enum top_k w_v hw hnd hdist henum hpres hpresV
  set vecR := search_vector_native cos db qemb (top_k * 2) with hvecR
  have hbm : search_bm25 db ([] : List (String × ℚ)) (top_k * 2) = [] :=
    search_bm25_nil db _
  have hfun : combinedScore (search_bm25 db [] (top_k * 2)) vecR 0 w_v
      = fun cid => w_v * dictGet (normalize_scores vecR) cid 0 := by
    funext cid
    rw [combinedScore]
    ring
  set L := vecR.map (fun r => r.chunk_id) with hL
  have hmem_iff : ∀ cid, cid ∈ enum ↔ cid ∈ L := by
    intro cid
    have h := henum.2 cid
    rw [hbm] at h
    simp only [List.map_nil, List.not_mem_nil, false_or] at h
    exact h
  have hperm_enum_L : enum.Perm L :=
    (List.subperm_of_subset henum.1 (fun cid hc => (hmem_iff cid).mp hc)).antisymm
      (List.subperm_of_subset hnd (fun cid hc => (hmem_iff cid).mpr hc))
  have hdesc := search_vector_native_pairwise_score cos db qemb (top_k * 2) hpresV
  have hstrictL : L.Pairwise (fun a b =>
      w_v * dictGet (normalize_scores vecR) b 0
        < w_v * dictGet (normalize_scores vecR) a 0) :=
    weighted_norm_strict_desc vecR w_v hw hnd hdist hdesc
  have hinj := weighted_norm_inj vecR w_v hw hnd hdist
  have hstrictS : (sortOnDesc (fun cid => w_v * dictGet (normalize_scores vecR) cid 0)
      enum).Pairwise (fun a b =>
        w_v * dictGet (normalize_scores vecR) b 0
          < w_v * dictGet (normalize_scores vecR) a 0) := by
    apply sortOnDesc_strict_of_inj _ enum henum.1
    intro a ha b hb
    exact hinj a ((hmem_iff a).mp ha) b ((hmem_iff b).mp hb)
  have hperm2 : (sortOnDesc (fun cid => w_v * dictGet (normalize_scores vecR) cid 0)
      enum).Perm L :=
    (sortOnDesc_perm _ enum).trans hperm_enum_L
  have hSL : sortOnDesc (fun cid => w_v * dictGet (normalize_scores vecR) cid 0) enum = L :=
    eq_of_perm_of_pairwise_strict (fun cid => w_v * dictGet (normalize_scores vecR) cid 0)
      hperm2 hstrictS hstrictL
  have hfull : search_hybrid_full db [] cos qemb enum top_k 0 w_v
      = search_hybrid db (search_bm25 db [] (top_k * 2)) vecR enum top_k 0 w_v := rfl
  have hids := search_hybrid_ids db (search_bm25 db [] (top_k * 2)) vecR enum top_k 0 w_v hpres
  rw [hfull, hids, hfun, hSL, hL]
  rw [search_vector_native_ids cos db qemb (top_k * 2) hpresV,
    search_vector_native_ids cos db qemb top_k hpresV]
  rw [← List.map_take, List.take_take]
  have hmin : top_k ⊓ (top_k * 2) = top_k := inf_eq_left.mpr (by omega)
  rw [hmin]

lemma lexical_mode_reversed_holds : LexicalModeReversed := by
  intro db lexMatch cos qemb enum top_k w_b hw hvecs hlen hnd hdist henum hpres hpresL
  have hvec2k : search_vector_native cos db qemb (top_k * 2) = [] :=
    search_vector_native_empty cos db qemb (top_k * 2) hvecs
  set bmR := search_bm25 db lexMatch (top_k * 2) with hbmR
  have hslen : (sortOnAsc (fun x : ChunkRow × ℚ => x.2)
      (lexMatch.map (fun row => ((findChunk db row.1).getD defaultChunk, row.2)))).length
        = lexMatch.length := by
    rw [sortOnAsc_length, List.length_map]
  have hBk : search_bm25 db lexMatch top_k = bmR := by
    rw [hbmR, search_bm25_eq_map db lexMatch top_k hpresL,
      search_bm25_eq_map db lexMatch (top_k * 2) hpresL,
      List.take_of_length_le (by rw [hslen]; omega),
      List.take_of_length_le (by rw [hslen]; omega)]
  have hbmlen : bmR.length = lexMatch.length := by
    rw [hbmR, search_bm25_eq_map db lexMatch (top_k * 2) hpresL, List.length_map,
      List.enum_length, List.take_of_length_le (by rw [hslen]; omega), hslen]
  have hfun : combinedScore bmR (search_vector_native cos db qemb (top_k * 2)) w_b 0
      = fun cid => w_b * dictGet (normalize_scores bmR) cid 0 := by
    funext cid
    rw [combinedScore]
    ring
  set L := bmR.map (fun r => r.chunk_id) with hL
  have hmem_iff : ∀ cid, cid ∈ enum ↔ cid ∈ L := by
    intro cid
    have h := henum.2 cid
    rw [hvec2k] at h
    simp only [List.map_nil, List.not_mem_nil, or_false] at h
    exact h
  have hperm_enum_L : enum.Perm L :=
    (List.subperm_of_subset henum.1 (fun cid hc => (hmem_iff cid).mp hc)).antisymm
      (List.subperm_of_subset hnd (fun cid hc => (hmem_iff cid).mpr hc))
  have hasc := search_bm25_pairwise_score db lexMatch (top_k * 2) hpresL
  have hascR : bmR.Pairwise (fun r r' => r.score ≤ r'.score) := by
    rw [hbmR]; exact hasc
  have hstrictL : L.Pairwise (fun a b =>
      w_b * dictGet (normalize_scores bmR) a 0
        < w_b * dictGet (normalize_scores bmR) b 0) :=
    weighted_norm_strict_asc bmR w_b hw hnd hdist hascR
  have hstrictLrev : L.reverse.Pairwise (fun a b =>
      w_b * dictGet (normalize_scores bmR) b 0
        < w_b * dictGet (normalize_scores bmR) a 0) :=
    (List.pairwise_reverse).mpr hstrictL
  have hinj := weighted_norm_inj bmR w_b hw hnd hdist
  have hstrictS : (sortOnDesc (fun cid => w_b * dictGet (normalize_scores bmR) cid 0)
      enum).Pairwise (fun a b =>
        w_b * dictGet (normalize_scores bmR) b 0
          < w_b * dictGet (normalize_scores bmR) a 0) := by
    apply sortOnDesc_strict_of_inj _ enum henum.1
    intro a ha b hb
    exact hinj a ((hmem_iff a).mp ha) b ((hmem_iff b).mp hb)
  have hperm2 : (sortOnDesc (fun cid => w_b * dictGet (normalize_scores bmR) cid 0)
      enum).Perm L.reverse :=
    ((sortOnDesc_perm _ enum).trans hperm_enum_L).trans (List.reverse_perm L).symm
  have hSL : sortOnDesc (fun cid => w_b * dictGet (normalize_scores bmR) cid 0) enum
      = L.reverse :=
    eq_of_perm_of_pairwise_strict (fun cid => w_b * dictGet (normalize_scores bmR) cid 0)
      hperm2 hstrictS hstrictLrev
  have hfull : search_hybrid_full db lexMatch cos qemb enum top_k w_b 0
      = search_hybrid db bmR (search_vector_native cos db qemb (top_k * 2))
          enum top_k w_b 0 := rfl
  have hids := search_hybrid_ids db bmR (search_vector_native cos db qemb (top_k * 2))
    enum top_k w_b 0 hpres
  rw [hfull, hids, hfun, hSL]
  have htake : (L.reverse).take top_k = L.reverse := by
    apply List.take_of_length_le
    rw [List.length_reverse, hL, List.length_map, hbmlen]
    omega
  rw [htake, hBk]

/-- Claim C6 (amended): a single-mode query is NOT equivalent to the hybrid
path with one weight at 0 in general.  The vector half holds: with no
lexical match rows and pairwise distinct vector scores, hybrid with lexical
weight 0 returns the vector-only ids in the same order.  The lexical half is
reversed: with no stored vectors, at most top_k lexical candidates and
pairwise distinct statistics, hybrid with vector weight 0 returns exactly
the reverse of the lexical-only id list. -/
theorem claim_C6_single_mode : VectorModeEquiv ∧ LexicalModeReversed :=
  ⟨vector_mode_equiv_holds, lexical_mode_reversed_holds⟩

/-- Counterexample to claim C6 as stated: two lexical candidates with raw
statistics 1 and 2 and an empty vector side.  Lexical-only search returns
["a", "b"] but the hybrid path with vector weight 0 returns ["b", "a"],
because min-max normalization maps the best raw statistic to 0 and fusion
sorts descending. -/
theorem claim_C6_counterexample :
    validEnum (search_bm25 twoChunkDB [("a", 1), ("b", 2)] (2 * 2))
        (search_vector_native zeroCos twoChunkDB [] (2 * 2)) ["a", "b"]
      ∧ (search_bm25 twoChunkDB [("a", 1), ("b", 2)] 2).map (fun r => r.chunk_id)
          = ["a", "b"]
      ∧ (search_hybrid_full twoChunkDB [("a", 1), ("b", 2)] zeroCos [] ["a", "b"] 2 1 0).map
          (fun r => r.chunk_id) = ["b", "a"]
      ∧ (search_hybrid_full twoChunkDB [("a", 1), ("b", 2)] zeroCos [] ["a", "b"] 2 1 0).map
            (fun r => r.chunk_id)
          ≠ (search_bm25 twoChunkDB [("a", 1), ("b", 2)] 2).map (fun r => r.chunk_id) := by
  have h1 : (search_bm25 twoChunkDB [("a", 1), ("b", 2)] (2 * 2)).map
      (fun s => s.chunk_id) = ["a", "b"] := by decide
  have h2 : (search_vector_native zeroCos twoChunkDB [] (2 * 2)).map
      (fun s => s.chunk_id) = [] := by decide
  have h3 : (search_hybrid_full twoChunkDB [("a", 1), ("b", 2)] zeroCos [] ["a", "b"]
      2 1 0).map (fun r => r.chunk_id) = ["b", "a"] := by
    norm_num [search_hybrid_full, search_hybrid, search_bm25, search_vector_native,
      sortOnAsc, sortOnDesc, List.insertionSort, List.orderedInsert, normalize_scores,
      dictGet, combinedScore, findChunk, twoChunkDB, chA, chB, zeroCos,
      vec_distance_cosine, defaultChunk, List.find?, List.filterMap, List.enum,
      List.enumFrom, List.foldl]
    decide
  have h4 : (search_bm25 twoChunkDB [("a", 1), ("b", 2)] 2).map
      (fun r => r.chunk_id) = ["a", "b"] := by decide
  refine ⟨⟨by decide, ?_⟩, h4, h3, ?_⟩
  · intro cid
    rw [h1, h2]
    simp
  · rw [h3, h4]
    decide

lemma sublist_take_of_mem {α : Type} {x y : α} :
    ∀ (l : List α) (k : Nat), [x, y].Sublist l → l.Nodup → y ∈ l.take k →
      [x, y].Sublist (l.take k) := by
  intro l
  induction l with
  | nil =>
    intro k hsub _ _
    cases hsub
  | cons a t ih =>
    intro k hsub hnd hy
    cases k with
    | zero => cases hy
    | succ k =>
      rw [List.take_succ_cons] at hy ⊢
      rw [List.nodup_cons] at hnd
      cases hsub with
      | cons _ hsub' =>
        rcases List.mem_cons.mp hy with rfl | hyt
        · exfalso
          exact hnd.1 (hsub'.subset (List.mem_cons_of_mem x (List.mem_cons_self y [])))
        · exact (ih k hsub' hnd.2 hyt).cons a
      | cons₂ _ hsub' =>
        rcases List.mem_cons.mp hy with rfl | hyt
        · exfalso
          exact hnd.1 (hsub'.subset (List.mem_cons_self y []))
        · exact (List.singleton_sublist.mpr hyt).cons₂ x

/-- Claim C7 (amended): equal fused scores are ordered by the iteration
order of the candidate-id union (a Python set, whose order is unspecified
and varies across processes), not by chunk ordinal: the descending sort is
stable with respect to that enumeration.  Stability: if cid1 precedes cid2
in the enumeration, their fused scores tie, and cid2 is returned, then cid1
is returned, before cid2. -/
theorem claim_C7_tie_break (db : DBState) (lexMatch : List (String × ℚ))
    (cos : List ℚ → List ℚ → ℚ) (qemb : List ℚ) (enum : List String)
    (top_k : Nat) (w_b w_v : ℚ) (cid1 cid2 : String)
    (hnd : enum.Nodup)
    (hpres : ∀ cid ∈ enum, (findChunk db cid).isSome)
    (hsub : [cid1, cid2].Sublist enum)
    (htie : combinedScore (search_bm25 db lexMatch (top_k * 2))
        (search_vector_native cos db qemb (top_k * 2)) w_b w_v cid1
      = combinedScore (search_bm25 db lexMatch (top_k * 2))
          (search_vector_native cos db qemb (top_k * 2)) w_b w_v cid2)
    (hin : cid2 ∈ (search_hybrid_full db lexMatch cos qemb enum top_k w_b w_v).map
        (fun r => r.chunk_id)) :
    [cid1, cid2].Sublist
      ((search_hybrid_full db lexMatch cos qemb enum top_k w_b w_v).map
        (fun r => r.chunk_id)) := by
  have hfull : search_hybrid_full db lexMatch cos qemb enum top_k w_b w_v
      = search_hybrid db (search_bm25 db lexMatch (top_k * 2))
          (search_vector_native cos db qemb (top_k * 2)) enum top_k w_b w_v := rfl
  have hids := search_hybrid_ids db (search_bm25 db lexMatch (top_k * 2))
    (search_vector_native cos db qemb (top_k * 2)) enum top_k w_b w_v hpres
  rw [hfull, hids] at hin ⊢
  have hsorted_sub : [cid1, cid2].Sublist
      (sortOnDesc (combinedScore (search_bm25 db lexMatch (top_k * 2))
        (search_vector_native cos db qemb (top_k * 2)) w_b w_v) enum) :=
    List.pair_sublist_insertionSort (le_of_eq htie.symm) hsub
  have hnd' : (sortOnDesc (combinedScore (search_bm25 db lexMatch (top_k * 2))
      (search_vector_native cos db qemb (top_k * 2)) w_b w_v) enum).Nodup :=
    (sortOnDesc_perm _ enum).nodup_iff.mpr hnd
  exact sublist_take_of_mem _ top_k hsorted_sub hnd' hin

/-- Witness for the amended claim C7: two lexical candidates with tied raw
statistic 1, so both fused scores are 1; with enumeration ["a", "b"] the
output keeps "a" before "b". -/
theorem claim_C7_tie_break_witness :
    (["a", "b"] : List String).Nodup
      ∧ (∀ cid ∈ (["a", "b"] : List String), (findChunk twoChunkDB cid).isSome)
      ∧ ([("a" : String), "b"]).Sublist ["a", "b"]
      ∧ combinedScore (search_bm25 twoChunkDB [("a", 1), ("b", 1)] (2 * 2))
          (search_vector_native zeroCos twoChunkDB [] (2 * 2)) 1 0 "a"
        = combinedScore (search_bm25 twoChunkDB [("a", 1), ("b", 1)] (2 * 2))
            (search_vector_native zeroCos twoChunkDB [] (2 * 2)) 1 0 "b"
      ∧ "b" ∈ (search_hybrid_full twoChunkDB [("a", 1), ("b", 1)] zeroCos [] ["a", "b"]
          2 1 0).map (fun r => r.chunk_id)
      ∧ [("a" : String), "b"].Sublist
          ((search_hybrid_full twoChunkDB [("a", 1), ("b", 1)] zeroCos [] ["a", "b"]
            2 1 0).map (fun r => r.chunk_id)) := by
  have htie : combinedScore (search_bm25 twoChunkDB [("a", 1), ("b", 1)] (2 * 2))
      (search_vector_native zeroCos twoChunkDB [] (2 * 2)) 1 0 "a"
    = combinedScore (search_bm25 twoChunkDB [("a", 1), ("b", 1)] (2 * 2))
        (search_vector_native zeroCos twoChunkDB [] (2 * 2)) 1 0 "b" := by
    norm_num [search_bm25, search_vector_native, sortOnAsc, List.insertionSort,
      List.orderedInsert, normalize_scores, dictGet, combinedScore, findChunk,
      twoChunkDB, chA, chB, zeroCos, vec_distance_cosine, defaultChunk, List.find?,
      List.filterMap, List.enum, List.enumFrom, List.foldl]
    decide
  have hin : "b" ∈ (search_hybrid_full twoChunkDB [("a", 1), ("b", 1)] zeroCos []
      ["a", "b"] 2 1 0).map (fun r => r.chunk_id) := by
    norm_num [search_hybrid_full, search_hybrid, search_bm25, search_vector_native,
      sortOnAsc, sortOnDesc, List.insertionSort, List.orderedInsert, normalize_scores,
      dictGet, combinedScore, findChunk, twoChunkDB, chA, chB, zeroCos,
      vec_distance_cosine, defaultChunk, List.find?, List.filterMap, List.enum,
      List.enumFrom, List.foldl]
    decide
  exact ⟨by decide, by decide, by decide, htie, hin,
    claim_C7_tie_break twoChunkDB [("a", 1), ("b", 1)] zeroCos [] ["a", "b"] 2 1 0
      "a" "b" (by decide) (by decide) (by decide) htie hin⟩

/-- Counterexample to claim C7 as stated: with two candidates tied at fused
score 1, two admissible enumerations of the candidate set (both orders of
the two ids) produce two different hybrid result lists, so the output order
on ties is not determined by the ordinal/insertion order and two runs need
not agree. -/
theorem claim_C7_counterexample :
    validEnum (search_bm25 twoChunkDB [("a", 1), ("b", 1)] (2 * 2))
        (search_vector_native zeroCos twoChunkDB [] (2 * 2)) ["a", "b"]
      ∧ validEnum (search_bm25 twoChunkDB [("a", 1), ("b", 1)] (2 * 2))
          (search_vector_native zeroCos twoChunkDB [] (2 * 2)) ["b", "a"]
      ∧ (search_hybrid_full twoChunkDB [("a", 1), ("b", 1)] zeroCos [] ["a", "b"]
          2 1 0).map (fun r => r.chunk_id) = ["a", "b"]
      ∧ (search_hybrid_full twoChunkDB [("a", 1), ("b", 1)] zeroCos [] ["b", "a"]
          2 1 0).map (fun r => r.chunk_id) = ["b", "a"]
      ∧ search_hybrid_full twoChunkDB [("a", 1), ("b", 1)] zeroCos [] ["a", "b"] 2 1 0
          ≠ search_hybrid_full twoChunkDB [("a", 1), ("b", 1)] zeroCos [] ["b", "a"] 2 1 0 := by
  have h1 : (search_bm25 twoChunkDB [("a", 1), ("b", 1)] (2 * 2)).map
      (fun s => s.chunk_id) = ["a", "b"] := by decide
  have h2 : (search_vector_native zeroCos twoChunkDB [] (2 * 2)).map
      (fun s => s.chunk_id) = [] := by decide
  have h3 : (search_hybrid_full twoChunkDB [("a", 1), ("b", 1)] zeroCos [] ["a", "b"]
      2 1 0).map (fun r => r.chunk_id) = ["a", "b"] := by
    norm_num [search_hybrid_full, search_hybrid, search_bm25, search_vector_native,
      sortOnAsc, sortOnDesc, List.insertionSort, List.orderedInsert, normalize_scores,
      dictGet, combinedScore, findChunk, twoChunkDB, chA, chB, zeroCos,
      vec_distance_cosine, defaultChunk, List.find?, List.filterMap, List.enum,
      List.enumFrom, List.foldl]
    decide
  have h4 : (search_hybrid_full twoChunkDB [("a", 1), ("b", 1)] zeroCos [] ["b", "a"]
      2 1 0).map (fun r => r.chunk_id) = ["b", "a"] := by
    norm_num [search_hybrid_full, search_hybrid, search_bm25, search_vector_native,
      sortOnAsc, sortOnDesc, List.insertionSort, List.orderedInsert, normalize_scores,
      dictGet, combinedScore, findChunk, twoChunkDB, chA, chB, zeroCos,
      vec_distance_cosine, defaultChunk, List.find?, List.filterMap, List.enum,
      List.enumFrom, List.foldl]
    decide
  refine ⟨⟨by decide, ?_⟩, ⟨by decide, ?_⟩, h3, h4, ?_⟩
  · intro cid
    rw [h1, h2]
    simp
  · intro cid
    rw [h1, h2]
    constructor
    · intro hc
      left
      rcases List.mem_cons.mp hc with rfl | hc2
      · simp
      · simp at hc2
        simp [hc2]
    · intro hc
      rcases hc with hc | hc
      · rcases List.mem_cons.mp hc with rfl | hc2
        · simp
        · simp at hc2
          simp [hc2]
      · cases hc
  · intro hc
    have := congrArg (fun l => l.map (fun r : SearchResult => r.chunk_id)) hc
    simp only at this
    rw [h3, h4] at this
    exact absurd this (by decide)

lemma search_vector_fallback_ids (cos : List ℚ → List ℚ → ℚ) (db : DBState)
    (qemb : List ℚ) (k : Nat)
    (hpres : ∀ v ∈ db.vecs, (findChunk db v.1).isSome) :
    (search_vector_fallback cos db qemb k).map (fun r => r.chunk_id)
      = ((sortOnDesc (fun x : String × ℚ => x.2)
          (db.vecs.map (fun v => (v.1, cos qemb v.2)))).take k).map (fun x => x.1) := by
  have hsub : ∀ p ∈ (sortOnDesc (fun x : String × ℚ => x.2)
      (db.vecs.map (fun v => (v.1, cos qemb v.2)))).take k,
      p.1 ∈ db.vecs.map (fun v => v.1) := by
    intro p hp
    have hmem : p ∈ db.vecs.map (fun v => (v.1, cos qemb v.2)) :=
      (sortOnDesc_perm _ _).mem_iff.mp (List.mem_of_mem_take hp)
    obtain ⟨v, hv, rfl⟩ := List.mem_map.mp hmem
    exact List.mem_map_of_mem _ hv
  have hpres2 : ∀ p ∈ (sortOnDesc (fun x : String × ℚ => x.2)
      (db.vecs.map (fun v => (v.1, cos qemb v.2)))).take k,
      (findChunk db p.1).isSome := by
    intro p hp
    obtain ⟨v, hv, hveq⟩ := List.mem_map.mp (hsub p hp)
    exact hveq ▸ hpres v hv
  have hmap : search_vector_fallback cos db qemb k
      = ((sortOnDesc (fun x : String × ℚ => x.2)
          (db.vecs.map (fun v => (v.1, cos qemb v.2)))).take k).enum.map
        (fun ir =>
          { chunk_id := ((findChunk db ir.2.1).getD defaultChunk).chunk_id,
            file_path := ((findChunk db ir.2.1).getD defaultChunk).file_path,
            file_type := ((findChunk db ir.2.1).getD defaultChunk).file_type,
            chunk_text := ((findChunk db ir.2.1).getD defaultChunk).chunk_text,
            score := ir.2.2, rank := ir.1 + 1 }) := by
    exact filterMap_some_eq_map
      (fun ir : Nat × (String × ℚ) => findChunk db ir.2.1)
      (fun (ir : Nat × (String × ℚ)) (mc : ChunkRow) =>
        ({ chunk_id := mc.chunk_id, file_path := mc.file_path, file_type := mc.file_type,
           chunk_text := mc.chunk_text, score := ir.2.2, rank := ir.1 + 1 } : SearchResult))
      defaultChunk
      ((sortOnDesc (fun x : String × ℚ => x.2)
        (db.vecs.map (fun v => (v.1, cos qemb v.2)))).take k).enum
      (fun ir hir => hpres2 ir.2 (List.snd_mem_of_mem_enum hir))
  rw [hmap, List.map_map]
  have h1 : ∀ ir ∈ ((sortOnDesc (fun x : String × ℚ => x.2)
      (db.vecs.map (fun v => (v.1, cos qemb v.2)))).take k).enum,
      ((findChunk db ir.2.1).getD defaultChunk).chunk_id = ir.2.1 := by
    intro ir hir
    exact findChunk_getD_id db ir.2.1 (hpres2 ir.2 (List.snd_mem_of_mem_enum hir))
  calc ((sortOnDesc (fun x : String × ℚ => x.2)
        (db.vecs.map (fun v => (v.1, cos qemb v.2)))).take k).enum.map
        (fun ir => ((findChunk db ir.2.1).getD defaultChunk).chunk_id)
      = ((sortOnDesc (fun x : String × ℚ => x.2)
          (db.vecs.map (fun v => (v.1, cos qemb v.2)))).take k).enum.map
          (fun ir => ir.2.1) := List.map_congr_left h1
    _ = ((sortOnDesc (fun x : String × ℚ => x.2)
          (db.vecs.map (fun v => (v.1, cos qemb v.2)))).take k).map (fun x => x.1) :=
        enum_map_snd_comp _ (fun x : String × ℚ => x.1)

/-- The content of claim C8: for the same stored corpus and query embedding,
the native path and the linear-scan fallback return the same chunk ids, in
fact in the same order, hence in particular the same id set. -/
def FallbackEquivClaim (cos : List ℚ → List ℚ → ℚ) (db : DBState) (qemb : List ℚ)
    (top_k : Nat) : Prop :=
  (search_vector_native cos db qemb top_k).map (fun r => r.chunk_id)
      = (search_vector_fallback cos db qemb top_k).map (fun r => r.chunk_id)
  ∧ ∀ cid, cid ∈ (search_vector_native cos db qemb top_k).map (fun r => r.chunk_id)
      ↔ cid ∈ (search_vector_fallback cos db qemb top_k).map (fun r => r.chunk_id)

/-- Claim C8: fallback equivalence.  For an identical corpus of stored
embeddings and an identical query, vector search through the native
accelerated path (cosine distance 1 - similarity, ascending) and through
the linear-scan cosine fallback (similarity, descending) return the same
top-k chunk id set.  The cosine routine is a symmetric external
collaborator; the pairwise-distinct hypothesis is the claim's "up to ties"
carve-out (the model resolves the unspecified SQL tie order by stored row
order). -/
theorem claim_C8_fallback_equiv (cos : List ℚ → List ℚ → ℚ) (db : DBState)
    (qemb : List ℚ) (top_k : Nat)
    (hsym : ∀ a b, cos a b = cos b a)
    (hpres : ∀ v ∈ db.vecs, (findChunk db v.1).isSome)
    (hdist : (db.vecs.map (fun v => cos qemb v.2)).Pairwise (fun a b => a ≠ b)) :
    FallbackEquivClaim cos db qemb top_k := by
  have hmain : (search_vector_native cos db qemb top_k).map (fun r => r.chunk_id)
      = (search_vector_fallback cos db qemb top_k).map (fun r => r.chunk_id) := by
    rw [search_vector_native_ids cos db qemb top_k hpres,
      search_vector_fallback_ids cos db qemb top_k hpres]
    have hjoin : db.vecs.map (fun v => ((findChunk db v.1).getD defaultChunk,
        vec_distance_cosine cos v.2 qemb))
        = (db.vecs.map (fun v => (v.1, cos qemb v.2))).map
            (fun p => ((findChunk db p.1).getD defaultChunk, 1 - p.2)) := by
      rw [List.map_map]
      apply List.map_congr_left
      intro v _
      simp only [Function.comp_apply, vec_distance_cosine]
      rw [hsym]
    rw [hjoin]
    have hsortmap : (sortOnDesc (fun x : String × ℚ => x.2)
        (db.vecs.map (fun v => (v.1, cos qemb v.2)))).map
          (fun p => ((findChunk db p.1).getD defaultChunk, 1 - p.2))
        = sortOnAsc (fun x : ChunkRow × ℚ => x.2)
            ((db.vecs.map (fun v => (v.1, cos qemb v.2))).map
              (fun p => ((findChunk db p.1).getD defaultChunk, 1 - p.2))) := by
      apply List.map_insertionSort
      intro a _ b _
      constructor
      · intro h
        simp only
        linarith
      · intro h
        simp only at h
        linarith
    rw [← hsortmap, ← List.map_take, List.map_map]
    apply List.map_congr_left
    intro p hp
    simp only [Function.comp_apply]
    have hmem : p ∈ db.vecs.map (fun v => (v.1, cos qemb v.2)) :=
      (sortOnDesc_perm _ _).mem_iff.mp (List.mem_of_mem_take hp)
    obtain ⟨v, hv, rfl⟩ := List.mem_map.mp hmem
    exact findChunk_getD_id db v.1 (hpres v hv)
  exact ⟨hmain, fun cid => by rw [hmain]⟩

/-- Symmetric product similarity on 1-dimensional embeddings, a concrete
instance of the external cosine collaborator for witnesses. -/
def prodCos : List ℚ → List ℚ → ℚ := fun x y => x.headD 0 * y.headD 0

/-- Concrete two-chunk corpus with stored 1-dimensional embeddings. -/
def vecDB : DBState :=
  { chunks := [chA, chB], files := [], vecs := [("a", [1]), ("b", [2])] }

/-- Witness for claim C8 on the concrete two-vector corpus. -/
theorem claim_C8_fallback_equiv_witness :
    (∀ a b, prodCos a b = prodCos b a)
      ∧ (∀ v ∈ vecDB.vecs, (findChunk vecDB v.1).isSome)
      ∧ (vecDB.vecs.map (fun v => prodCos [1] v.2)).Pairwise (fun a b => a ≠ b)
      ∧ FallbackEquivClaim prodCos vecDB [1] 1 := by
  have hsym : ∀ a b, prodCos a b = prodCos b a := by
    intro a b
    simp only [prodCos]
    ring
  have hdist : (vecDB.vecs.map (fun v => prodCos [1] v.2)).Pairwise
      (fun a b => a ≠ b) := by
    simp only [vecDB, prodCos, List.map_cons, List.map_nil, List.pairwise_cons]
    norm_num
  exact ⟨hsym, by decide, hdist,
    claim_C8_fallback_equiv prodCos vecDB [1] 1 hsym (by decide) hdist⟩

/-- Window start of get_recent_context: datetime('now', '-days days'),
timestamps in seconds. -/
def windowStart (now : Int) (days : Nat) : Int := now - (days : Int) * 86400

/-- SemanticIndexer.get_recent_context (lines 541-575): keep the chunks whose
created_at is at least now minus the given number of days and order them
descending by created_at; no score of any kind is computed. -/
def get_recent_context (db : DBState) (now : Int) (days : Nat) : List ChunkRow :=
  sortOnDesc (fun c : ChunkRow => c.created_at)
    (db.chunks.filter (fun c => decide (windowStart now days ≤ c.created_at)))

/-- Rewrite only the text of a chunk row, leaving ids and timestamps
unchanged; used to state that recency retrieval ignores content. -/
def retext (f : String → String) (c : ChunkRow) : ChunkRow :=
  { c with chunk_text := f c.chunk_text }

/-- The content of claim C9: membership is exactly the [now - days, now]
window, the output is sorted descending by created_at, and the retrieval is
invariant under rewriting every chunk text (no relevance scoring). -/
def RecencyClaim (db : DBState) (now : Int) (days : Nat) : Prop :=
  (∀ c : ChunkRow, c ∈ get_recent_context db now days ↔
      (c ∈ db.chunks ∧ windowStart now days ≤ c.created_at ∧ c.created_at ≤ now))
  ∧ ((get_recent_context db now days).map (fun c => c.created_at)).Sorted
      (fun a b => b ≤ a)
  ∧ ∀ f : String → String,
      get_recent_context { db with chunks := db.chunks.map (retext f) } now days
        = (get_recent_context db now days).map (retext f)

/-- Claim C9: recency query.  For every non-negative day count (a Nat here),
under the pipeline invariant that stored timestamps never postdate the
clock, get_recent_context returns exactly the chunks with created_at in
[now - days, now], descending by created_at, independent of chunk
content. -/
theorem claim_C9_recent (db : DBState) (now : Int) (days : Nat)
    (hclock : ∀ c ∈ db.chunks, c.created_at ≤ now) :
    RecencyClaim db now days := by
  refine ⟨?_, ?_, ?_⟩
  · intro c
    constructor
    · intro hc
      have hmem : c ∈ db.chunks.filter (fun c => decide (windowStart now days ≤ c.created_at)) :=
        (sortOnDesc_perm _ _).mem_iff.mp hc
      have h1 := List.mem_filter.mp hmem
      refine ⟨h1.1, by simpa using h1.2, hclock c h1.1⟩
    · intro hc
      apply (sortOnDesc_perm _ _).mem_iff.mpr
      exact List.mem_filter.mpr ⟨hc.1, by simpa using hc.2.1⟩
  · have hsorted := sortOnDesc_sorted (fun c : ChunkRow => c.created_at)
      (db.chunks.filter (fun c => decide (windowStart now days ≤ c.created_at)))
    exact (List.pairwise_map).mpr hsorted
  · intro f
    have hfilter : (db.chunks.map (retext f)).filter
        (fun c => decide (windowStart now days ≤ c.created_at))
        = (db.chunks.filter (fun c => decide (windowStart now days ≤ c.created_at))).map
            (retext f) := by
      rw [List.filter_map]
      rfl
    show sortOnDesc (fun c : ChunkRow => c.created_at)
        ((db.chunks.map (retext f)).filter
          (fun c => decide (windowStart now days ≤ c.created_at)))
      = (get_recent_context db now days).map (retext f)
    rw [hfilter]
    rw [get_recent_context]
    exact (List.map_insertionSort _ _ (retext f) _ (fun a _ b _ => Iff.rfl)).symm

/-- Concrete corpus for the claim C9 witness: one chunk inside the 2-day
window, one outside. -/
def recentDB : DBState :=
  { chunks :=
      [{ chA with created_at := 1000000 },
       { chB with created_at := 100 }],
    files := [], vecs := [] }

/-- Witness for claim C9 at now = 1000000, days = 2. -/
theorem claim_C9_recent_witness :
    (∀ c ∈ recentDB.chunks, c.created_at ≤ 1000000)
      ∧ RecencyClaim recentDB 1000000 2 :=
  ⟨by decide, claim_C9_recent recentDB 1000000 2 (by decide)⟩

/-- SQL statements index_file executes on its connection, as trace
operations; commit marks conn.commit().  Uncommitted statements are rolled
back when the connection is dropped, so only statements before the last
commit ever become durable. -/
inductive SqlOp where
  | deleteChunks (path : String)
  | deleteVecsForFile (path : String)
  | insertChunk (row : ChunkRow)
  | insertVec (chunk_id : String) (emb : List ℚ)
  | upsertFile (row : FileRow)
  | commit
deriving DecidableEq

/-- Effect of one statement on the table contents.  deleteVecsForFile
evaluates its subquery (chunk ids of the file in memory_chunks) against the
state at execution time, exactly as the nested SELECT does.  commit is a
marker with no table effect of its own. -/
def execOp (db : DBState) : SqlOp → DBState
  | SqlOp.deleteChunks p =>
      { db with chunks := db.chunks.filter (fun c => decide (c.file_path ≠ p)) }
  | SqlOp.deleteVecsForFile p =>
      { db with vecs := db.vecs.filter (fun v => decide (v.1 ∉
          ((db.chunks.filter (fun c => decide (c.file_path = p))).map
            (fun c => c.chunk_id)))) }
  | SqlOp.insertChunk r => { db with chunks := db.chunks ++ [r] }
  | SqlOp.insertVec cid e => { db with vecs := db.vecs ++ [(cid, e)] }
  | SqlOp.upsertFile r =>
      { db with files := db.files.filter (fun x => decide (x.file_path ≠ r.file_path)) ++ [r] }
  | SqlOp.commit => db

def committedOpsAux : List SqlOp → List SqlOp → List SqlOp → List SqlOp
  | committed, _, [] => committed
  | committed, pending, SqlOp.commit :: rest => committedOpsAux (committed ++ pending) [] rest
  | committed, pending, op :: rest => committedOpsAux committed (pending ++ [op]) rest

/-- The prefix of a statement trace that sqlite makes durable: everything up
to the last commit; a trailing uncommitted suffix is rolled back. -/
def committedOps (ops : List SqlOp) : List SqlOp := committedOpsAux [] [] ops

/-- Durable database state after running a trace on a fresh connection. -/
def durableAfter (db : DBState) (ops : List SqlOp) : DBState :=
  (committedOps ops).foldl execOp db

/-- Python (pat in s) for strings. -/
def containsSub (s pat : String) : Bool := (s.splitOn pat).length != 1

/-- SemanticIndexer._get_file_type (lines 190-205). -/
def get_file_type (path : String) : String :=
  if containsSub path "soul.md" then "soul"
  else if containsSub path "memory.md" then "memory"
  else if containsSub path "user.md" then "user"
  else if containsSub path "/daily/" then "daily"
  else if containsSub path "/topics/" then "topic"
  else "other"

/-- Record of one index_file run: the statements executed on the connection,
the number of embedding-provider calls made, and the outcome (chunk count,
or the propagated provider error). -/
structure IndexAttempt (ε : Type) where
  ops : List SqlOp
  embedCalls : Nat
  ret : Except ε Nat

/-- SELECT file_hash FROM indexed_files WHERE file_path = ? (line 227). -/
def lookupFile (db : DBState) (path : String) : Option FileRow :=
  db.files.find? (fun f => f.file_path == path)

/-- SemanticIndexer.index_file (lines 207-313).  External collaborators are
parameters: hash models the sha256 hexdigest of the file content, encode the
embedding model (which may raise), now the datetime.now() timestamp, uuids
the uuid4 stream.  The statement order follows the source: on a changed
file, first the two deletes, then the embedding call, then the interleaved
chunk and embedding inserts, the indexed_files upsert, and the single
commit; an unchanged file returns 0 without touching the connection; a
provider error propagates with the deletes still uncommitted. -/
def index_file {ε : Type} (hash : String → String)
    (encode : List String → Except ε (List (List ℚ)))
    (size overlap : Nat) (now : Int) (uuids : Nat → String)
    (path content : String) (db : DBState) : IndexAttempt ε :=
  let file_hash := hash content
  let go : List SqlOp → IndexAttempt ε := fun deleteOps =>
    let chunks := chunk_text size overlap content
    match encode chunks with
    | Except.error e => { ops := deleteOps, embedCalls := 1, ret := Except.error e }
    | Except.ok embeddings =>
      let ft := get_file_type path
      let insertOps := ((chunks.zip embeddings).enum).flatMap (fun ice =>
        [SqlOp.insertChunk
          { chunk_id := uuids ice.1, file_path := path, file_type := ft,
            chunk_text := ice.2.1, chunk_index := ice.1,
            token_count := (pySplit ice.2.1).length, created_at := now,
            updated_at := now, metadata := "\x7b\x7d" },
         SqlOp.insertVec (uuids ice.1) ice.2.2])
      { ops := deleteOps ++ insertOps
          ++ [SqlOp.upsertFile
                { file_path := path, file_hash := file_hash, last_indexed := now,
                  chunk_count := chunks.length },
              SqlOp.commit],
        embedCalls := 1, ret := Except.ok chunks.length }
  match lookupFile db path with
  | some row =>
    if row.file_hash = file_hash then { ops := [], embedCalls := 0, ret := Except.ok 0 }
    else go [SqlOp.deleteChunks path, SqlOp.deleteVecsForFile path]
  | none => go []

/-- The stored chunk set of one file. -/
def chunksOfFile (db : DBState) (path : String) : List ChunkRow :=
  db.chunks.filter (fun c => decide (c.file_path = path))

/-- The content of claim C2 for one index_file run: the call returns 0,
makes no embedding call, executes no statement, and leaves the durable
state unchanged. -/
def IdempotenceClaim {ε : Type} (hash : String → String)
    (encode : List String → Except ε (List (List ℚ)))
    (size overlap : Nat) (now : Int) (uuids : Nat → String)
    (path content : String) (db : DBState) : Prop :=
  (index_file hash encode size overlap now uuids path content db).ret = Except.ok 0
  ∧ (index_file hash encode size overlap now uuids path content db).embedCalls = 0
  ∧ (index_file hash encode size overlap now uuids path content db).ops = []
  ∧ durableAfter db (index_file hash encode size overlap now uuids path content db).ops
      = db

/-- Claim C2: idempotence of indexing.  When the stored digest of the file
equals the digest of the current content, index_file returns 0, performs
zero embedding-provider calls, and leaves the stored chunk set (indeed the
whole database) unchanged. -/
theorem claim_C2_idempotence {ε : Type} (hash : String → String)
    (encode : List String → Except ε (List (List ℚ)))
    (size overlap : Nat) (now : Int) (uuids : Nat → String)
    (path content : String) (db : DBState) (row : FileRow)
    (hlook : lookupFile db path = some row)
    (hhash : row.file_hash = hash content) :
    IdempotenceClaim hash encode size overlap now uuids path content db := by
  have hidx : index_file hash encode size overlap now uuids path content db
      = { ops := [], embedCalls := 0, ret := Except.ok 0 } := by
    simp only [index_file, hlook, if_pos hhash]
  refine ⟨?_, ?_, ?_, ?_⟩ <;> rw [hidx] <;> rfl

/-- Stored file row and one stored chunk for the C1 and C2 witnesses. -/
def idxDB : DBState :=
  { chunks := [{ chA with file_path := "p" }],
    files := [{ file_path := "p", file_hash := "c", last_indexed := 0, chunk_count := 1 }],
    vecs := [("a", [1])] }

/-- Witness for claim C2: the stored digest "c" matches the identity digest
of the unchanged content "c". -/
theorem claim_C2_idempotence_witness :
    lookupFile idxDB "p"
        = some { file_path := "p", file_hash := "c", last_indexed := 0, chunk_count := 1 }
      ∧ ("c" : String) = (fun s : String => s) "c"
      ∧ IdempotenceClaim (ε := String) (fun s => s) (fun _ => Except.ok [])
          3 1 0 (fun _ => "u") "p" "c" idxDB :=
  ⟨by decide, rfl,
    claim_C2_idempotence (fun s => s) (fun _ => Except.ok []) 3 1 0 (fun _ => "u")
      "p" "c" idxDB
      { file_path := "p", file_hash := "c", last_indexed := 0, chunk_count := 1 }
      (by decide) rfl⟩

/-- The content of claim C1 for one failing index_file run: the provider
error propagates, and the durable database (in particular the stored chunk
set of the file and its indexed_files row) is exactly the pre-call state. -/
def ReindexAtomicityClaim {ε : Type} (hash : String → String)
    (encode : List String → Except ε (List (List ℚ)))
    (size overlap : Nat) (now : Int) (uuids : Nat → String)
    (path content : String) (db : DBState) (e : ε) : Prop :=
  (index_file hash encode size overlap now uuids path content db).ret = Except.error e
  ∧ durableAfter db (index_file hash encode size overlap now uuids path content db).ops
      = db
  ∧ chunksOfFile
      (durableAfter db (index_file hash encode size overlap now uuids path content db).ops)
      path = chunksOfFile db path
  ∧ lookupFile
      (durableAfter db (index_file hash encode size overlap now uuids path content db).ops)
      path = lookupFile db path

/-- Claim C1: re-index atomicity.  For a file already indexed under some
digest, if the embedding provider raises during a subsequent index_file on
changed content, the error propagates and the durable chunk set and file
row are unchanged: the deletes the source issues before the embedding call
are still uncommitted when the exception unwinds, so sqlite rolls them
back. -/
theorem claim_C1_reindex_atomicity {ε : Type} (hash : String → String)
    (encode : List String → Except ε (List (List ℚ)))
    (size overlap : Nat) (now : Int) (uuids : Nat → String)
    (path content : String) (db : DBState) (row : FileRow) (e : ε)
    (hlook : lookupFile db path = some row)
    (hchanged : row.file_hash ≠ hash content)
    (hfail : encode (chunk_text size overlap content) = Except.error e) :
    ReindexAtomicityClaim hash encode size overlap now uuids path content db e := by
  have hidx : index_file hash encode size overlap now uuids path content db
      = { ops := [SqlOp.deleteChunks path, SqlOp.deleteVecsForFile path],
          embedCalls := 1, ret := Except.error e } := by
    simp only [index_file, hlook, if_neg hchanged, hfail]
  refine ⟨?_, ?_, ?_, ?_⟩ <;> rw [hidx] <;> rfl

/-- Witness for claim C1: stored digest "old" differs from the identity
digest of the new content, and the provider fails with "boom"; the stored
chunk row for the file and its indexed_files row survive unchanged. -/
theorem claim_C1_reindex_atomicity_witness :
    lookupFile idxDB "p"
        = some { file_path := "p", file_hash := "c", last_indexed := 0, chunk_count := 1 }
      ∧ ("c" : String) ≠ (fun s : String => s) "x y"
      ∧ (fun _ : List String => (Except.error "boom" : Except String (List (List ℚ))))
          (chunk_text 3 1 "x y") = Except.error "boom"
      ∧ ReindexAtomicityClaim (ε := String) (fun s => s)
          (fun _ => Except.error "boom") 3 1 0 (fun _ => "u") "p" "x y" idxDB "boom" :=
  ⟨by decide, by decide, rfl,
    claim_C1_reindex_atomicity (fun s => s) (fun _ => Except.error "boom") 3 1 0
      (fun _ => "u") "p" "x y" idxDB
      { file_path := "p", file_hash := "c", last_indexed := 0, chunk_count := 1 }
      "boom" (by decide) (by decide) rfl⟩
